import Mathlib

/-!
Verification of the Scheduler repository (src/availability.py and
src/schedule.py) against its natural-language specification.

Shallow embedding conventions:
* An instant (Python `datetime`) is a `Nat` counting minutes since an epoch
  midnight; the epoch day (day 0) is a Monday, so Python's
  `datetime.weekday()` (Monday = 0) is `t / 1440 % 7`.
* A calendar date (Python `datetime.date`) is its day number `t / 1440`.
* A `time`-of-day value is its minute-of-day (`time(9,0)` is `540`).
* Weekday names are their Python weekday numbers (Monday = 0 … Sunday = 6).
* Python code that can raise (`IndexError` on list indexing, `KeyError` on
  dict indexing, `KeyError` on a missing DataFrame column) is embedded in
  `Except Unit`, with `.error ()` marking an escaped exception.
-/

namespace Scheduler

/-- Calendar date (day number) of an instant: Python `dt.date()`. -/
def dateOf (t : Nat) : Nat := t / 1440

/-- Hour component of an instant: Python `dt.hour`. -/
def hourOf (t : Nat) : Nat := t % 1440 / 60

/-- Python `dt.weekday()` (Monday = 0); day 0 of the epoch is a Monday. -/
def weekdayOf (t : Nat) : Nat := t / 1440 % 7

/-- Python list indexing `l[i]`: negative indices count from the end and an
out-of-range index raises `IndexError` (modelled as `none`). -/
def pyIdx {α : Type} (l : List α) (i : Int) : Option α :=
  if 0 ≤ (if i < 0 then (l.length : Int) + i else i) then
    l.get? (if i < 0 then (l.length : Int) + i else i).toNat
  else none

/-- Association-list lookup, the embedding of Python dict indexing /
`in` tests (`availability[date]`, `week_num in weekly_sessions`, …). -/
def alookup {κ : Type} [DecidableEq κ] {α : Type} : List (κ × α) → κ → Option α
  | [], _ => none
  | p :: rest, k => if p.1 = k then some p.2 else alookup rest k

/-- One row of the availability DataFrame produced by
`create_time_slots` (columns `date`, `slot_start`, `slot_end`; the
`weekday` column is never consumed downstream and is omitted). -/
structure TimeSlot where
  date : Nat
  slot_start : Nat
  slot_end : Nat
deriving DecidableEq, Repr

/-- availability.py `round_time_to_nearest_slot`: zero out seconds and
round the minute down to a multiple of `SLOT_INTERVAL = 15`; on a
minute-valued instant this is `t - t % 15`. -/
def round_time_to_nearest_slot (t : Nat) : Nat := t - t % 15

/-- availability.py `create_daily_time_slots`: blocks of 15 minutes from the
rounded daily start, emitted while `current <= end` (so the block starting
exactly at the rounded end instant is included). -/
def create_daily_time_slots (date : Nat) (start_time end_time : Nat) : List TimeSlot :=
  let c0 := round_time_to_nearest_slot (1440 * date + start_time)
  let e := round_time_to_nearest_slot (1440 * date + end_time)
  if c0 ≤ e then
    (List.range ((e - c0) / 15 + 1)).map fun k =>
      { date := (c0 + 15 * k) / 1440
        slot_start := c0 + 15 * k
        slot_end := c0 + 15 * k + 15 }
  else []

/-- The dates `start, start + 1 day, …` while `current <= stop` (the
`while current <= end` loops of availability.py and schedule.py). -/
def spanDates (start stop : Nat) : List Nat :=
  if start ≤ stop then (List.range ((stop - start) / 1440 + 1)).map fun k => start + 1440 * k
  else []

/-- availability.py `create_time_slots`: for every date of the range whose
weekday is a working day, emit that day's slot rows. -/
def create_time_slots (start_date end_date : Nat) (wh_start wh_end : Nat)
    (working_days : List Nat) : List TimeSlot :=
  (spanDates start_date end_date).foldr
    (fun current acc =>
      (if working_days.contains (weekdayOf current) then
        create_daily_time_slots (dateOf current) wh_start wh_end
      else []) ++ acc) []

/-- The busy-interval overlap test inlined in availability.py
`get_available_slots` (its local `is_slot_available` closure returns the
negation of this over all busy rows). -/
def slotConflicts (slot_start slot_end bstart bend : Nat) : Bool :=
  (decide (bstart ≤ slot_start) && decide (slot_start < bend))
    || (decide (bstart < slot_end) && decide (slot_end ≤ bend))
    || (decide (slot_start ≤ bstart) && decide (bend ≤ slot_end))

/-- availability.py `get_available_slots`: keep the rows conflicting with no
busy interval.  With an empty busy list, `pd.DataFrame(busy_slots)` has no
columns and `busy_df['start']` raises `KeyError`, embedded as `.error ()`. -/
def get_available_slots (rows : List TimeSlot) (busy : List (Nat × Nat)) :
    Except Unit (List TimeSlot) :=
  if busy.isEmpty then .error ()
  else .ok (rows.filter fun r =>
    busy.all fun b => ! slotConflicts r.slot_start r.slot_end b.1 b.2)

/-- One block of the availability calendar dict built by schedule.py
`create_availability_blocks` (keys `'start'`, `'end'`, `'booked'`; `end` is
a Lean keyword, so the field is named `stop`). -/
structure Block where
  start : Nat
  stop : Nat
  booked : Bool
deriving DecidableEq, Repr

instance : Inhabited Block := ⟨⟨0, 0, false⟩⟩

/-- The availability calendar: Python dict from date to block list,
embedded as an association list (its keys are produced pairwise distinct
and the dict is only ever read through key lookup). -/
abbrev Avail := List (Nat × List Block)

/-- One scheduled session `{'start': …, 'end': …}`. -/
structure Session where
  start : Nat
  stop : Nat
deriving DecidableEq, Repr

/-- The schedule dict from client name to session list, in insertion
order, embedded as an association list with pairwise-distinct keys. -/
abbrev Schedule := List (String × List Session)

/-- One row of the processed-clients DataFrame, after the parsing performed
at the top of the per-client loop of `schedule_sessions`
(`parse_time_range` / `parse_days` / `parse_unavailable_dates`):
`preferred_times` is the parsed hour-range list, `preferred_days` the
parsed weekday-number list, and `blocked_dates` the parsed list of
midnight instants. -/
structure Client where
  name : String
  session_duration : Nat
  num_weekly_sessions : Nat
  preferred_times : List (Int × Int)
  preferred_days : List Nat
  blocked_dates : List Nat
deriving DecidableEq, Repr

/-- Stable insertion of a number into an ascending list (equal keys keep
their relative order, the new element going after existing equals). -/
def insertNatAsc (n : Nat) : List Nat → List Nat
  | [] => [n]
  | m :: rest => if n < m then n :: m :: rest else m :: insertNatAsc n rest

/-- Ascending insertion sort on naturals (used for the sorted group keys
of pandas `groupby`). -/
def insertionSortNat (l : List Nat) : List Nat := l.foldl (fun acc n => insertNatAsc n acc) []

/-- schedule.py `create_availability_blocks`: group the availability rows
by their `date` column (pandas `groupby` sorts the group keys and keeps
row order inside each group) into fresh unbooked blocks. -/
def create_availability_blocks (rows : List TimeSlot) : Avail :=
  let dates := insertionSortNat (rows.map TimeSlot.date).dedup
  dates.map fun d =>
    (d, (rows.filter fun r => r.date = d).map fun r =>
      { start := r.slot_start, stop := r.slot_end, booked := false })

/-- schedule.py `is_slot_available`: bounds guard, then Python list reads
`blocks[start_idx]` and `blocks[start_idx + num_blocks - 1]` (which crash
for `num_blocks = 0` at `start_idx = len(blocks)`), the preferred-hour
test, and the all-unbooked test over the run. -/
def is_slot_available (blocks : List Block) (start_idx num_blocks : Nat)
    (time_ranges : List (Int × Int)) : Except Unit Bool :=
  if blocks = [] ∨ blocks.length < start_idx + num_blocks then .ok false
  else
    match pyIdx blocks (start_idx : Int), pyIdx blocks ((start_idx : Int) + num_blocks - 1) with
    | some first, some last =>
      if !(time_ranges.any fun r =>
          decide (r.1 ≤ (hourOf first.start : Int)) && decide ((hourOf last.stop : Int) ≤ r.2)) then
        .ok false
      else .ok ((List.range num_blocks).all fun k =>
        !(blocks.getD (start_idx + k) default).booked)
    | _, _ => .error ()

/-- The `for i in range(len(blocks) - num_blocks + 1)` loop of
`find_available_slot`, over the explicit index list; on the first index
whose slot test succeeds it returns
`(blocks[i]['start'], blocks[i + num_blocks - 1]['end'])`. -/
def findSlotLoop (blocks : List Block) (num_blocks : Nat) (pref : List (Int × Int)) :
    List Nat → Except Unit (Option (Nat × Nat))
  | [] => .ok none
  | i :: rest =>
    match is_slot_available blocks i num_blocks pref with
    | .error e => .error e
    | .ok true =>
      match pyIdx blocks (i : Int), pyIdx blocks ((i : Int) + num_blocks - 1) with
      | some first, some last => .ok (some (first.start, last.stop))
      | _, _ => .error ()
    | .ok false => findSlotLoop blocks num_blocks pref rest

/-- schedule.py `find_available_slot`. -/
def find_available_slot (availability : Avail) (date : Nat) (duration : Nat)
    (preferred_times : List (Int × Int)) (block_size : Nat) :
    Except Unit (Option (Nat × Nat)) :=
  match alookup availability (dateOf date) with
  | none => .ok none
  | some blocks =>
    if blocks = [] then .ok none
    else
      let num_blocks := duration / block_size
      findSlotLoop blocks num_blocks preferred_times
        (List.range (blocks.length + 1 - num_blocks))

/-- Flip `booked` on a block whose start falls in `[start, stop)`
(the loop body of `_mark_slot_booked`). -/
def markBlock (start stop : Nat) (b : Block) : Block :=
  if start ≤ b.start ∧ b.start < stop then { b with booked := true } else b

/-- Update one calendar entry for `_mark_slot_booked`. -/
def markEntry (start stop : Nat) (p : Nat × List Block) : Nat × List Block :=
  if p.1 = start / 1440 then (p.1, p.2.map (markBlock start stop)) else p

/-- schedule.py `_mark_slot_booked`: `availability[start.date()]` raises
`KeyError` when that date is not a key; otherwise every block of that
date whose start lies in `[start, end)` is marked booked. -/
def mark_slot_booked (availability : Avail) (start stop : Nat) : Except Unit Avail :=
  if (alookup availability (start / 1440)).isSome then
    .ok (availability.map (markEntry start stop))
  else .error ()

/-- schedule.py `get_week_number`: `(date - start_date).days // 7`, both
divisions flooring, as in Python. -/
def getWeekNumber (date start_date : Nat) : Int :=
  (((date : Int) - (start_date : Int)).fdiv 1440).fdiv 7

/-- Read `weekly_sessions.get(week_num, 0)`. -/
def weeklyGet (w : List (Int × Nat)) (k : Int) : Nat := (alookup w k).getD 0

/-- `weekly_sessions[week_num] = weekly_sessions.get(week_num, 0) + 1`:
bump the (unique) entry, or insert it at the end as Python dicts do. -/
def weeklyInc : List (Int × Nat) → Int → List (Int × Nat)
  | [], k => [(k, 1)]
  | p :: rest, k => if p.1 = k then (p.1, p.2 + 1) :: rest else p :: weeklyInc rest k

/-- `schedule[name] = v` on the schedule dict: overwrite the (unique)
existing entry in place, else insert at the end. -/
def schedSet : Schedule → String → List Session → Schedule
  | [], n, v => [(n, v)]
  | p :: rest, n, v => if p.1 = n then (n, v) :: rest else p :: schedSet rest n v

/-- `schedule[name].append(sess)`; the entry always exists when the code
runs this (it is created at the top of the client loop). -/
def appendSession : Schedule → String → Session → Schedule
  | [], _, _ => []
  | p :: rest, n, s => if p.1 = n then (p.1, p.2 ++ [s]) :: rest else p :: appendSession rest n s

/-- Split a character list at every occurrence of a character, Python
`s.split(c)` (adjacent separators yield empty pieces). -/
def splitChar (c : Char) : List Char → List (List Char)
  | [] => [[]]
  | x :: xs =>
    if x = c then [] :: splitChar c xs
    else
      match splitChar c xs with
      | [] => [[x]]
      | g :: gs => (x :: g) :: gs

/-- Split a character list at every non-overlapping occurrence of the
four-character separator `" to "`, scanning left to right: Python
`r.split(' to ')`. -/
def splitTo : List Char → List (List Char)
  | ' ' :: 't' :: 'o' :: ' ' :: rest => [] :: splitTo rest
  | x :: rest =>
    match splitTo rest with
    | [] => [[x]]
    | g :: gs => (x :: g) :: gs
  | [] => [[]]

/-- Python `str.strip()` restricted to blanks, tabs and newlines. -/
def chTrim (l : List Char) : List Char :=
  let ws := fun c : Char => c = ' ' ∨ c = '\t' ∨ c = '\n' ∨ c = '\r'
  ((l.dropWhile ws).reverse.dropWhile ws).reverse

/-- Decimal digits to a number; `none` when empty or any character is not
a digit. -/
def digitsToNat (l : List Char) : Option Nat :=
  if l = [] then none
  else l.foldl (fun acc c =>
    match acc with
    | none => none
    | some n => if c.isDigit then some (n * 10 + (c.toNat - 48)) else none) (some 0)

/-- Python `int(s)` on a plain optionally-signed decimal string (leading
and trailing whitespace stripped); `ValueError` is `none`. -/
def pyInt (l : List Char) : Option Int :=
  match chTrim l with
  | '-' :: rest => (digitsToNat rest).map fun n => -(n : Int)
  | t => (digitsToNat t).map fun n => (n : Int)

/-- schedule.py `parse_time_range`: an empty (or non-string) value gives
`[]`; otherwise split on `','`, strip, split each piece on `' to '` into
exactly two parts, and take the integer before the first `':'` of each;
any failure anywhere (caught by the bare `except`) discards everything
and yields `[]`. -/
def parse_time_range (time_str : String) : List (Int × Int) :=
  if time_str = "" then []
  else
    let pieces := (splitChar ',' time_str.toList).map chTrim
    let step := fun (r : List Char) =>
      match splitTo r with
      | [a, b] =>
        match pyInt ((splitChar ':' a).headD []), pyInt ((splitChar ':' b).headD []) with
        | some x, some y => some (x, y)
        | _, _ => none
      | _ => none
    match pieces.mapM step with
    | some l => l
    | none => []

/-- The mutable state threaded through one scheduling run: the schedule
dict, the shared availability calendar, the current client's
`weekly_sessions` tracker, and the current span's `used_dates` set (as a
list of dates) and `sessions_left` counter. -/
structure St where
  sched : Schedule
  avail : Avail
  weekly : List (Int × Nat)
  used : List Nat
  left : Int
deriving Repr

/-- One pass of `_schedule_partial_week` / `_schedule_week` (their two
date loops are textually identical, differing only in the time-range
list): for each date, if quota remains and the date is neither blocked
nor already used, search for a slot; on success append the session, mark
the blocks booked, record the date, bump the week bucket and decrement
`sessions_left`. -/
def passLoop (name : String) (duration : Nat) (blocked : List Nat)
    (tr : List (Int × Int)) (block_size : Nat) (wk : Int) :
    List Nat → St → Except Unit St
  | [], st => .ok st
  | current :: rest, st =>
    if st.left ≤ 0 then .ok st
    else if blocked.contains current = false ∧ st.used.contains (current / 1440) = false then
      match find_available_slot st.avail current duration tr block_size with
      | .error e => .error e
      | .ok none => passLoop name duration blocked tr block_size wk rest st
      | .ok (some slot) =>
        match mark_slot_booked st.avail slot.1 slot.2 with
        | .error e => .error e
        | .ok avail2 =>
          passLoop name duration blocked tr block_size wk rest
            { sched := appendSession st.sched name ⟨slot.1, slot.2⟩
              avail := avail2
              weekly := weeklyInc st.weekly wk
              used := st.used ++ [current / 1440]
              left := st.left - 1 }
    else passLoop name duration blocked tr block_size wk rest st

/-- The date ordering of `_schedule_partial_week` / `_schedule_week`:
Python's stable `sort` with key `(d.weekday() not in preferred_days, d)`
on the chronological date list puts the preferred-weekday dates first and
keeps each group chronological. -/
def sortDates (dates : List Nat) (preferred_days : List Nat) : List Nat :=
  dates.filter (fun d => preferred_days.contains (weekdayOf d))
    ++ dates.filter (fun d => ! preferred_days.contains (weekdayOf d))

/-- schedule.py `_schedule_partial_week` and `_schedule_week`, which are
identical up to the span's date range: `_schedule_week` at `week_start`
enumerates exactly the dates of `[week_start, week_start + 6 days]`, so
both are this function applied to the span `[span_start, span_stop]`.
Pass 1 uses the client's preferred times; pass 2, if quota remains, the
unrestricted range `[(0, 24)]`. -/
def scheduleSpan (client : Client) (block_size : Nat) (start_date : Nat)
    (span_start span_stop : Nat) (st : St) : Except Unit St :=
  let wk := getWeekNumber span_start start_date
  let sessions_left : Int :=
    (client.num_weekly_sessions : Int) - (weeklyGet st.weekly wk : Nat)
  if sessions_left ≤ 0 then .ok st
  else
    let sorted := sortDates (spanDates span_start span_stop) client.preferred_days
    match passLoop client.name client.session_duration client.blocked_dates
        client.preferred_times block_size wk sorted
        { st with used := [], left := sessions_left } with
    | .error e => .error e
    | .ok st1 =>
      if 0 < st1.left then
        passLoop client.name client.session_duration client.blocked_dates
          [(0, 24)] block_size wk sorted st1
      else .ok st1

/-- `(7 - start_date.weekday()) % 7` of `schedule_sessions`. -/
def daysToMonday (start_date : Nat) : Nat := (7 - weekdayOf start_date) % 7

/-- `first_monday = start_date + timedelta(days=days_to_monday)`. -/
def firstMonday (start_date : Nat) : Nat := start_date + 1440 * daysToMonday start_date

/-- The span sequence driven by `schedule_sessions` lines 177-204: the
partial first week `[start_date, first_monday - 1 day]` when
`days_to_monday > 0 and first_monday <= end_date`; then `num_full_weeks`
full weeks from `first_monday` (`range` of a negative count is empty);
then the trailing partial week `[current_monday, end_date]` when
`current_monday <= end_date`. -/
def weekSpans (start_date end_date : Nat) : List (Nat × Nat) :=
  let dtm := daysToMonday start_date
  let fm := firstMonday start_date
  let num_full_weeks : Int := (((end_date : Int) - (fm : Int)).fdiv 1440).fdiv 7
  let firstPart := if 0 < dtm ∧ fm ≤ end_date then [(start_date, fm - 1440)] else []
  let fulls := (List.range num_full_weeks.toNat).map fun k =>
    (fm + 10080 * k, fm + 10080 * k + 8640)
  let current_monday := fm + 10080 * num_full_weeks.toNat
  let lastPart := if current_monday ≤ end_date then [(current_monday, end_date)] else []
  firstPart ++ fulls ++ lastPart

/-- Fold the per-client span calls of `schedule_sessions`. -/
def foldSpans (client : Client) (block_size start_date : Nat) :
    List (Nat × Nat) → St → Except Unit St
  | [], st => .ok st
  | (a, b) :: rest, st =>
    match scheduleSpan client block_size start_date a b st with
    | .error e => .error e
    | .ok st' => foldSpans client block_size start_date rest st'

/-- The body of the client loop of `schedule_sessions`: create the
client's empty schedule entry, reset the weekly tracker, then schedule
every span of the range. -/
def processClient (client : Client) (block_size start_date end_date : Nat)
    (st : St) : Except Unit St :=
  foldSpans client block_size start_date (weekSpans start_date end_date)
    { st with sched := schedSet st.sched client.name [], weekly := [] }

/-- The priority score `session_duration * num_weekly_sessions`. -/
def priority (c : Client) : Nat := c.session_duration * c.num_weekly_sessions

/-- Stable ascending insertion by priority (ties land after earlier
elements). -/
def insertClientAsc (c : Client) : List Client → List Client
  | [] => [c]
  | d :: rest => if priority c < priority d then c :: d :: rest else d :: insertClientAsc c rest

/-- Stable ascending sort by priority. -/
def sortClientsAsc (cs : List Client) : List Client :=
  cs.foldl (fun acc c => insertClientAsc c acc) []

/-- `clients_df.sort_values('priority', ascending=False)`: pandas
`nargsort` REVERSES the values before the ascending `argsort` and
reverses the resulting indexer again (`non_nans = non_nans[::-1]` ...
`indexer = indexer[::-1]`); with a stable argsort (numpy's `quicksort`
runs its stable insertion-sort path on the small frames this system
handles) the double reversal yields the stable descending order, with
equal-priority ties in ORIGINAL input order. -/
def rankClients (cs : List Client) : List Client := (sortClientsAsc cs.reverse).reverse

/-- Fold the outer client loop of `schedule_sessions`. -/
def foldClients (block_size start_date end_date : Nat) :
    List Client → St → Except Unit St
  | [], st => .ok st
  | c :: rest, st =>
    match processClient c block_size start_date end_date st with
    | .error e => .error e
    | .ok st' => foldClients block_size start_date end_date rest st'

/-- schedule.py `schedule_sessions`: empty client or availability tables
short-circuit to an empty schedule; otherwise the calendar is built and
the ranked clients are scheduled in order. -/
def schedule_sessions (clients : List Client) (rows : List TimeSlot)
    (start_date end_date : Nat) (block_size : Nat) : Except Unit Schedule :=
  if clients.isEmpty ∨ rows.isEmpty then .ok []
  else
    match foldClients block_size start_date end_date (rankClients clients)
        { sched := [], avail := create_availability_blocks rows,
          weekly := [], used := [], left := 0 } with
    | .error e => .error e
    | .ok st => .ok st.sched

/-- The spec's wording of the overlap test (§4.2): block `[s,e)` conflicts
with busy `[bs,be)` if `s` falls inside `[bs,be)`, or `e` falls inside
`(bs,be]`, or the busy interval is fully contained within the block. -/
def SpecConflict (s e bs be : Nat) : Prop :=
  (bs ≤ s ∧ s < be) ∨ (bs < e ∧ e ≤ be) ∨ (s ≤ bs ∧ be ≤ e)

instance (s e bs be : Nat) : Decidable (SpecConflict s e bs be) := by
  unfold SpecConflict; infer_instance

/-! ### Availability-builder lemmas (claims C5, C6) -/

theorem round_slot_eq (t : Nat) : round_time_to_nearest_slot t = 15 * (t / 15) := by
  unfold round_time_to_nearest_slot; omega

theorem round_slot_mono {a b : Nat} (h : a ≤ b) :
    round_time_to_nearest_slot a ≤ round_time_to_nearest_slot b := by
  rw [round_slot_eq, round_slot_eq]
  exact Nat.mul_le_mul_left 15 (Nat.div_le_div_right h)

theorem round_slot_dvd (t : Nat) : 15 ∣ round_time_to_nearest_slot t :=
  ⟨t / 15, round_slot_eq t⟩

theorem slotConflicts_iff (s e bs be : Nat) :
    slotConflicts s e bs be = true ↔ SpecConflict s e bs be := by
  simp [slotConflicts, SpecConflict, or_assoc]

/-- Claim C5 (counterexample): with an empty busy-interval list,
`get_available_slots` raises a `KeyError` (from `busy_df['start']` on a
column-less DataFrame) instead of returning the — vacuously conflict-free
— input blocks. -/
theorem C5_counterexample :
    get_available_slots [⟨0, 540, 555⟩] [] = .error () ∧
    (Except.error () : Except Unit (List TimeSlot)) ≠ .ok [⟨0, 540, 555⟩] :=
  ⟨rfl, fun h => Except.noConfusion h⟩

/-- Claim C5 (amended): for every input grid and every NONEMPTY busy
list, a block is retained exactly when it conflicts with no busy interval
under the spec's overlap test; the busy interval 10:00-10:30 on a
9:00-17:00 day of 15-minute blocks removes exactly the blocks starting at
10:00 and 10:15. -/
theorem C5_availability_filter :
    (∀ (rows : List TimeSlot) (busy : List (Nat × Nat)) (r : TimeSlot), busy ≠ [] →
      ((∃ out, get_available_slots rows busy = .ok out ∧ r ∈ out) ↔
        r ∈ rows ∧ ∀ b ∈ busy, ¬ SpecConflict r.slot_start r.slot_end b.1 b.2)) ∧
    get_available_slots (create_daily_time_slots 0 540 1020) [(600, 630)]
      = .ok ((create_daily_time_slots 0 540 1020).filter
          fun r => decide (r.slot_start ≠ 600) && decide (r.slot_start ≠ 615)) := by
  constructor
  · intro rows busy r hb
    have hne : busy.isEmpty = false := by
      cases busy with
      | nil => exact absurd rfl hb
      | cons x xs => rfl
    rw [get_available_slots, hne]
    simp only [Bool.false_eq_true, if_false]
    constructor
    · rintro ⟨out, hout, hr⟩
      have : out = rows.filter fun r =>
          busy.all fun b => ! slotConflicts r.slot_start r.slot_end b.1 b.2 := by
        exact (Except.ok.inj hout).symm
      subst this
      rcases List.mem_filter.mp hr with ⟨h1, h2⟩
      refine ⟨h1, ?_⟩
      intro b hbmem
      have := (List.all_eq_true.mp h2) b hbmem
      simp only [Bool.not_eq_eq_eq_not, Bool.not_true] at this
      intro hc
      rw [← slotConflicts_iff] at hc
      simp [hc] at this
    · rintro ⟨h1, h2⟩
      refine ⟨_, rfl, ?_⟩
      refine List.mem_filter.mpr ⟨h1, ?_⟩
      refine List.all_eq_true.mpr ?_
      intro b hbmem
      have := h2 b hbmem
      rw [← slotConflicts_iff] at this
      simp only [Bool.not_eq_eq_eq_not, Bool.not_true]
      exact Bool.not_eq_true _ ▸ (by simpa using this)
  · rfl

/-- Claim C5 (witness): the general filter characterisation applied to a
one-block grid with one busy interval. -/
theorem C5_witness :
    (([((0 : Nat), (10 : Nat))] : List (Nat × Nat)) ≠ []) ∧
    ((∃ out, get_available_slots [⟨0, 540, 555⟩] [(0, 10)] = .ok out ∧
        (⟨0, 540, 555⟩ : TimeSlot) ∈ out) ↔
      (⟨0, 540, 555⟩ : TimeSlot) ∈ [(⟨0, 540, 555⟩ : TimeSlot)] ∧
        ∀ b ∈ [((0 : Nat), (10 : Nat))], ¬ SpecConflict 540 555 b.1 b.2) :=
  ⟨by decide, C5_availability_filter.1 [⟨0, 540, 555⟩] [(0, 10)] ⟨0, 540, 555⟩ (by decide)⟩

/-- Claim C6: the daily grid consists of consecutive 15-minute blocks from
the rounded-down start instant, including a final block starting exactly
at the rounded-down end instant and extending past the working-hour
window; for working hours 09:00-10:00 the block starts are 09:00, 09:15,
09:30, 09:45 and 10:00, the last block ending 10:15. -/
theorem C6_grid_blocks :
    create_daily_time_slots 0 540 600 =
      [⟨0, 540, 555⟩, ⟨0, 555, 570⟩, ⟨0, 570, 585⟩, ⟨0, 585, 600⟩, ⟨0, 600, 615⟩] ∧
    ∀ d s_t e_t, s_t ≤ e_t →
      (create_daily_time_slots d s_t e_t).length
        = (round_time_to_nearest_slot (1440 * d + e_t)
            - round_time_to_nearest_slot (1440 * d + s_t)) / 15 + 1 ∧
      (∀ k, k < (create_daily_time_slots d s_t e_t).length →
        (create_daily_time_slots d s_t e_t).get? k = some
          { date := (round_time_to_nearest_slot (1440 * d + s_t) + 15 * k) / 1440
            slot_start := round_time_to_nearest_slot (1440 * d + s_t) + 15 * k
            slot_end := round_time_to_nearest_slot (1440 * d + s_t) + 15 * k + 15 }) ∧
      (create_daily_time_slots d s_t e_t).get?
          ((round_time_to_nearest_slot (1440 * d + e_t)
            - round_time_to_nearest_slot (1440 * d + s_t)) / 15)
        = some { date := round_time_to_nearest_slot (1440 * d + e_t) / 1440
                 slot_start := round_time_to_nearest_slot (1440 * d + e_t)
                 slot_end := round_time_to_nearest_slot (1440 * d + e_t) + 15 } ∧
      1440 * d + e_t < round_time_to_nearest_slot (1440 * d + e_t) + 15 := by
  constructor
  · decide
  · intro d s_t e_t hle
    have hmono := round_slot_mono (Nat.add_le_add_left hle (1440 * d))
    set c0 := round_time_to_nearest_slot (1440 * d + s_t) with hc0
    set e := round_time_to_nearest_slot (1440 * d + e_t) with he
    have hdef : create_daily_time_slots d s_t e_t =
        (List.range ((e - c0) / 15 + 1)).map fun k =>
          { date := (c0 + 15 * k) / 1440
            slot_start := c0 + 15 * k
            slot_end := c0 + 15 * k + 15 } := by
      rw [create_daily_time_slots, ← hc0, ← he, if_pos hmono]
    have hlen : (create_daily_time_slots d s_t e_t).length = (e - c0) / 15 + 1 := by
      rw [hdef, List.length_map, List.length_range]
    refine ⟨hlen, ?_, ?_, ?_⟩
    · intro k hk
      rw [hlen] at hk
      rw [hdef, List.get?_map, List.get?_range hk, Option.map_some']
    · have hdvd : 15 ∣ e - c0 := Nat.dvd_sub' (round_slot_dvd _) (round_slot_dvd _)
      have hmul : 15 * ((e - c0) / 15) = e - c0 := Nat.mul_div_cancel' hdvd
      have hk : (e - c0) / 15 < (e - c0) / 15 + 1 := Nat.lt_succ_self _
      rw [hdef, List.get?_map, List.get?_range hk, Option.map_some']
      have heq : c0 + 15 * ((e - c0) / 15) = e := by omega
      simp only [heq]
    · have : 1440 * d + e_t < e + 15 := by
        rw [he, round_slot_eq]; omega
      exact this

/-- Claim C6 (witness): the general block description applied to the
09:00-10:00 scenario day. -/
theorem C6_witness :
    (540 ≤ 600) ∧
    (create_daily_time_slots 0 540 600).length
      = (round_time_to_nearest_slot (1440 * 0 + 600)
          - round_time_to_nearest_slot (1440 * 0 + 540)) / 15 + 1 :=
  ⟨by decide, (C6_grid_blocks.2 0 540 600 (by decide)).1⟩

/-! ### Week partitioning (claim C4) -/

/-- Coercion of natural division into `Int.fdiv`. -/
theorem fdiv_natCast (a b : Nat) : ((a : Int)).fdiv (b : Int) = ((a / b : Nat) : Int) :=
  (Int.ofNat_fdiv a b).symm

/-- Claim C4 (counterexample): for the range Wednesday day 2 to Monday
day 14, `schedule_sessions` processes the partial first week starting at
day 2 and the full week starting at Monday day 7; both spans are tagged
with week bucket 0 although they lie in different Monday-aligned weeks
(day 2 is in Monday-week 0, day 7 in Monday-week 1 of the epoch). -/
theorem C4_counterexample :
    weekSpans 2880 20160 = [(2880, 8640), (10080, 18720), (20160, 20160)] ∧
    getWeekNumber 2880 2880 = getWeekNumber 10080 2880 ∧
    2880 / 1440 / 7 ≠ 10080 / 1440 / 7 := by
  refine ⟨by decide, by decide, by decide⟩

/-- Claim C4 (amended): each span is tagged with
`(span_start - start_date).days // 7`, but these buckets are 7-day
windows anchored at `start_date`, not Monday-aligned weeks: whenever
`start_date` is not a Monday and at least one full week fits after it,
the partial first week and the first full week are both tagged bucket 0
although they lie in different Monday-aligned calendar weeks. -/
theorem C4_bucket_anchored_at_start :
    ∀ sd ed : Nat, 0 < daysToMonday sd → firstMonday sd + 10080 ≤ ed →
      (weekSpans sd ed).take 2
        = [(sd, firstMonday sd - 1440), (firstMonday sd, firstMonday sd + 8640)] ∧
      getWeekNumber sd sd = 0 ∧
      getWeekNumber (firstMonday sd) sd = 0 ∧
      sd / 1440 / 7 ≠ firstMonday sd / 1440 / 7 := by
  intro sd ed hdtm hed
  have hdtm7 : daysToMonday sd < 7 := Nat.mod_lt _ (by omega)
  have hfm : firstMonday sd = sd + 1440 * daysToMonday sd := rfl
  have hfmle : firstMonday sd ≤ ed := by omega
  have hcast : ((ed : Int) - (firstMonday sd : Int))
      = ((ed - firstMonday sd : Nat) : Int) := by
    omega
  have hnfw : (((ed : Int) - (firstMonday sd : Int)).fdiv 1440).fdiv 7
      = (((ed - firstMonday sd) / 1440 / 7 : Nat) : Int) := by
    rw [hcast]
    rw [show ((1440 : Int)) = ((1440 : Nat) : Int) from rfl, fdiv_natCast]
    rw [show ((7 : Int)) = ((7 : Nat) : Int) from rfl, fdiv_natCast]
  have hnfw1 : 1 ≤ (ed - firstMonday sd) / 1440 / 7 := by omega
  refine ⟨?_, ?_, ?_, ?_⟩
  · rw [weekSpans]
    simp only [hnfw, Int.toNat_natCast]
    rw [if_pos ⟨hdtm, hfmle⟩]
    obtain ⟨m, hm⟩ : ∃ m, (ed - firstMonday sd) / 1440 / 7 = m + 1 :=
      ⟨(ed - firstMonday sd) / 1440 / 7 - 1, by omega⟩
    rw [hm, List.range_succ_eq_map]
    simp
  · simp [getWeekNumber]
  · have : ((firstMonday sd : Int) - (sd : Int))
        = ((1440 * daysToMonday sd : Nat) : Int) := by
      rw [hfm]; push_cast; ring
    rw [getWeekNumber, this]
    rw [show ((1440 : Int)) = ((1440 : Nat) : Int) from rfl, fdiv_natCast]
    rw [show ((7 : Int)) = ((7 : Nat) : Int) from rfl, fdiv_natCast]
    have : 1440 * daysToMonday sd / 1440 / 7 = 0 := by omega
    rw [this]; rfl
  · rw [hfm]
    have hw : daysToMonday sd = (7 - sd / 1440 % 7) % 7 := rfl
    omega

/-- Claim C4 (witness): the Wednesday-to-Monday range day 2 .. day 14
satisfies the amended statement concretely. -/
theorem C4_witness :
    0 < daysToMonday 2880 ∧ firstMonday 2880 + 10080 ≤ 20160 ∧
    ((weekSpans 2880 20160).take 2
        = [(2880, firstMonday 2880 - 1440), (firstMonday 2880, firstMonday 2880 + 8640)] ∧
      getWeekNumber 2880 2880 = 0 ∧
      getWeekNumber (firstMonday 2880) 2880 = 0 ∧
      2880 / 1440 / 7 ≠ firstMonday 2880 / 1440 / 7) :=
  ⟨by decide, by decide, C4_bucket_anchored_at_start 2880 20160 (by decide) (by decide)⟩

/-! ### Client ranking (claim C7) -/

theorem insertClientAsc_perm (c : Client) (l : List Client) :
    (insertClientAsc c l).Perm (c :: l) := by
  induction l with
  | nil => exact List.Perm.refl _
  | cons d rest ih =>
    rw [insertClientAsc]
    split
    · exact List.Perm.refl _
    · exact (List.Perm.cons d ih).trans (List.Perm.swap c d rest)

theorem sortClientsAsc_perm (cs : List Client) : (sortClientsAsc cs).Perm cs := by
  suffices h : ∀ cs acc : List Client,
      (cs.foldl (fun acc c => insertClientAsc c acc) acc).Perm (acc ++ cs) by
    simpa using h cs []
  intro cs
  induction cs with
  | nil => intro acc; simp
  | cons c rest ih =>
    intro acc
    rw [List.foldl_cons]
    refine (ih (insertClientAsc c acc)).trans ?_
    refine (List.Perm.append_right rest (insertClientAsc_perm c acc)).trans ?_
    exact List.perm_middle.symm

theorem insertClientAsc_sorted {c : Client} {l : List Client}
    (h : l.Pairwise fun x y => priority x ≤ priority y) :
    (insertClientAsc c l).Pairwise fun x y => priority x ≤ priority y := by
  induction l with
  | nil => simp [insertClientAsc]
  | cons d rest ih =>
    rw [insertClientAsc]
    rcases List.pairwise_cons.mp h with ⟨hd, hrest⟩
    split
    · rename_i hlt
      refine List.pairwise_cons.mpr ⟨?_, h⟩
      intro y hy
      rcases List.mem_cons.mp hy with rfl | hy
      · omega
      · exact le_trans (le_of_lt hlt) (hd y hy)
    · rename_i hge
      refine List.pairwise_cons.mpr ⟨?_, ih hrest⟩
      intro y hy
      have hy' := (insertClientAsc_perm c rest).mem_iff.mp hy
      rcases List.mem_cons.mp hy' with hy' | hy'
      · subst hy'; omega
      · exact hd y hy'

theorem sortClientsAsc_sorted (cs : List Client) :
    (sortClientsAsc cs).Pairwise fun x y => priority x ≤ priority y := by
  suffices h : ∀ cs acc : List Client,
      (acc.Pairwise fun x y => priority x ≤ priority y) →
      ((cs.foldl (fun acc c => insertClientAsc c acc) acc).Pairwise
        fun x y => priority x ≤ priority y) by
    exact h cs [] (List.Pairwise.nil)
  intro cs
  induction cs with
  | nil => intro acc hacc; simpa using hacc
  | cons c rest ih =>
    intro acc hacc
    rw [List.foldl_cons]
    exact ih _ (insertClientAsc_sorted hacc)

theorem rankClients_perm (cs : List Client) : (rankClients cs).Perm cs :=
  ((List.reverse_perm _).trans (sortClientsAsc_perm cs.reverse)).trans
    (List.reverse_perm cs)

/-- The spec's wording of the ranking, written independently of the
pandas mechanism for comparison with `rankClients`: a stable descending
insertion — each client is placed before the first already-placed client
of priority at most its own, so building from the right keeps
equal-priority ties in ORIGINAL input order. -/
def insertClientStableDesc (c : Client) : List Client → List Client
  | [] => [c]
  | d :: rest =>
    if priority d ≤ priority c then c :: d :: rest else d :: insertClientStableDesc c rest

/-- The spec's stable descending sort by priority. -/
def rankClientsSpec (cs : List Client) : List Client := cs.foldr insertClientStableDesc []

theorem insertStableDesc_of_all_gt {c : Client} {m : List Client}
    (h : ∀ x ∈ m, priority c < priority x) :
    insertClientStableDesc c m = m ++ [c] := by
  induction m with
  | nil => rfl
  | cons d rest ih =>
    rw [insertClientStableDesc,
      if_neg (Nat.not_le.mpr (h d (List.mem_cons_self _ _))),
      ih fun x hx => h x (List.mem_cons_of_mem _ hx)]
    rfl

theorem insertStableDesc_append {c d : Client} (h : priority d ≤ priority c) :
    ∀ m : List Client,
      insertClientStableDesc c (m ++ [d]) = insertClientStableDesc c m ++ [d] := by
  intro m
  induction m with
  | nil =>
    show (if priority d ≤ priority c then c :: d :: ([] : List Client)
        else d :: insertClientStableDesc c []) = [c] ++ [d]
    rw [if_pos h]
    rfl
  | cons x rest ih =>
    rw [List.cons_append, insertClientStableDesc, insertClientStableDesc]
    by_cases hx : priority x ≤ priority c
    · rw [if_pos hx, if_pos hx]
      rfl
    · rw [if_neg hx, if_neg hx, ih]
      rfl

/-- Reversing a stable ascending insertion into a sorted list gives the
stable descending insertion into the reversed list. -/
theorem insertClientAsc_reverse {c : Client} {l : List Client}
    (hs : l.Pairwise fun x y => priority x ≤ priority y) :
    (insertClientAsc c l).reverse = insertClientStableDesc c l.reverse := by
  induction l with
  | nil => rfl
  | cons d rest ih =>
    rw [List.pairwise_cons] at hs
    obtain ⟨hd, hrest⟩ := hs
    rw [insertClientAsc]
    by_cases hc : priority c < priority d
    · rw [if_pos hc, List.reverse_cons]
      refine (insertStableDesc_of_all_gt fun x hx => ?_).symm
      rcases List.mem_cons.mp (List.mem_reverse.mp hx) with rfl | hxr
      · exact hc
      · exact lt_of_lt_of_le hc (hd x hxr)
    · rw [if_neg hc, List.reverse_cons, List.reverse_cons, ih hrest]
      exact (insertStableDesc_append (Nat.not_lt.mp hc) rest.reverse).symm

theorem sortClientsAsc_append_one (l : List Client) (c : Client) :
    sortClientsAsc (l ++ [c]) = insertClientAsc c (sortClientsAsc l) := by
  rw [sortClientsAsc, sortClientsAsc, List.foldl_append]
  rfl

/-- The pandas double-reversal around the stable ascending argsort equals
the spec's stable descending sort. -/
theorem rankClients_eq_spec (cs : List Client) : rankClients cs = rankClientsSpec cs := by
  induction cs with
  | nil => rfl
  | cons c rest ih =>
    show (sortClientsAsc ((c :: rest).reverse)).reverse = rankClientsSpec (c :: rest)
    rw [List.reverse_cons, sortClientsAsc_append_one,
      insertClientAsc_reverse (sortClientsAsc_sorted rest.reverse)]
    show insertClientStableDesc c (rankClients rest)
      = insertClientStableDesc c (rankClientsSpec rest)
    rw [ih]

/-- Claim C7: clients are allocated in non-increasing order of the
priority score `session_duration * num_weekly_sessions`: the processed
order is a permutation of the input with non-increasing priorities, it
equals the spec-worded stable descending sort — so equal-priority ties
stay in ORIGINAL input order (pandas `nargsort` reverses the values
before the stable ascending argsort and reverses the indexer after) —
and in particular a two-client tie keeps its input order. -/
theorem C7_ranking :
    (∀ cs : List Client, (rankClients cs).Perm cs ∧
      ((rankClients cs).map priority).Pairwise (fun x y => y ≤ x) ∧
      rankClients cs = rankClientsSpec cs) ∧
    ∀ a b : Client, priority a = priority b → rankClients [a, b] = [a, b] := by
  constructor
  · intro cs
    refine ⟨rankClients_perm cs, ?_, rankClients_eq_spec cs⟩
    rw [rankClients, List.map_reverse, List.pairwise_reverse, List.pairwise_map]
    exact sortClientsAsc_sorted cs.reverse
  · intro a b h
    rw [rankClients_eq_spec]
    show insertClientStableDesc a [b] = [a, b]
    rw [insertClientStableDesc, if_pos h.symm.le]

/-- Claim C7 (witness): two concrete clients with the equal score 60
arising from different durations and weekly counts rank in original
input order. -/
theorem C7_witness :
    priority ⟨"X", 30, 2, [], [], []⟩ = priority ⟨"Y", 60, 1, [], [], []⟩ ∧
    rankClients [⟨"X", 30, 2, [], [], []⟩, ⟨"Y", 60, 1, [], [], []⟩]
      = [⟨"X", 30, 2, [], [], []⟩, ⟨"Y", 60, 1, [], [], []⟩] :=
  ⟨by decide, C7_ranking.2 ⟨"X", 30, 2, [], [], []⟩ ⟨"Y", 60, 1, [], [], []⟩ (by decide)⟩

/-! ### Concrete counterexample runs (claims C1, C8, C9, C10) -/

/-- Claim C1 (counterexample): a client with `session_duration = 30` (a
positive multiple of the 15-minute granularity) books the two consecutive
LIST entries 9:00-9:15 and 10:00-10:15 of a gapped calendar and receives
the session 9:00-10:15 of duration 75 minutes, not 30. -/
theorem C1_counterexample :
    schedule_sessions [⟨"A", 30, 1, [(0, 24)], [], []⟩]
        [⟨0, 540, 555⟩, ⟨0, 600, 615⟩] 0 0 15
      = .ok [("A", [⟨540, 615⟩])] ∧
    (15 : Nat) ∣ 30 ∧ (0 : Nat) < 30 ∧ 615 - 540 ≠ 30 :=
  ⟨rfl, by decide, by decide, by decide⟩

/-- Claim C8 (counterexample): with the well-typed input range starting at
9:00 (not midnight), the guard `current not in blocked_dates` compares the
9:00 instant of each date against the parsed midnight instants, never
matches, and a session is booked on the client's blocked date (day 2,
blocked as midnight instant 2880). -/
theorem C8_counterexample :
    schedule_sessions [⟨"C", 15, 1, [(0, 24)], [], [2880]⟩]
        [⟨2, 3420, 3435⟩] 540 10620 15
      = .ok [("C", [⟨3420, 3435⟩])] ∧
    (2880 : Nat) % 1440 = 0 ∧ (2880 : Nat) ∈ [2880] ∧ 3420 / 1440 = 2880 / 1440 :=
  ⟨rfl, by decide, by decide, by decide⟩

/-- Claim C9 (counterexample): a well-typed client whose
`session_duration = 7` is below the block granularity makes
`find_available_slot` scan `num_blocks = 0` runs up to index
`len(blocks)`, where `blocks[start_idx]` raises `IndexError`; the
exception escapes `schedule_sessions`. -/
theorem C9_counterexample :
    schedule_sessions [⟨"D", 7, 1, [(20, 21)], [], []⟩]
        [⟨0, 540, 555⟩, ⟨0, 555, 570⟩, ⟨0, 570, 585⟩, ⟨0, 585, 600⟩] 0 0 15
      = .error () ∧
    (Except.error () : Except Unit Schedule) ≠ .ok [] :=
  ⟨rfl, fun h => Except.noConfusion h⟩

/-- Claim C10 (counterexample): with run length 0 and start index 1 on a
one-block list, `is_slot_available` with an empty preferred-time list
raises `IndexError` at `blocks[start_idx]` instead of returning `False`. -/
theorem C10_counterexample :
    is_slot_available [⟨540, 555, false⟩] 1 0 [] = .error () ∧
    is_slot_available [⟨540, 555, false⟩] 1 0 [] ≠ .ok false :=
  ⟨rfl, fun h => Except.noConfusion h⟩

/-! ### Calendar well-formedness predicates

These are the data-model invariants the spec's §3 declares for the
availability calendar (uniform 15-minute, grid-aligned, sorted blocks
lying on their keyed date); the upstream grid builder establishes them
and booking only flips `booked` flags, so they are preserved through a
run. -/

/-- Every block spans exactly one granularity unit. -/
def UniformOK (bs : Nat) (avail : Avail) : Prop :=
  ∀ p ∈ avail, ∀ b ∈ p.2, b.stop = b.start + bs

/-- Every block start is aligned to the grid. -/
def AlignedOK (bs : Nat) (avail : Avail) : Prop :=
  ∀ p ∈ avail, ∀ b ∈ p.2, bs ∣ b.start

/-- Every block lies on the calendar date that keys it. -/
def OnDateOK (avail : Avail) : Prop :=
  ∀ p ∈ avail, ∀ b ∈ p.2, b.start / 1440 = p.1

/-- Each date's blocks are in strictly increasing start order. -/
def SortedOK (avail : Avail) : Prop :=
  ∀ p ∈ avail, p.2.Pairwise fun x y => x.start < y.start

/-- Each date's blocks are contiguous in time. -/
def ContigOK (avail : Avail) : Prop :=
  ∀ p ∈ avail, p.2.Chain' fun x y => y.start = x.stop

instance (bs : Nat) (avail : Avail) : Decidable (UniformOK bs avail) :=
  inferInstanceAs (Decidable (∀ p ∈ avail, ∀ b ∈ p.2, b.stop = b.start + bs))

instance (bs : Nat) (avail : Avail) : Decidable (AlignedOK bs avail) :=
  inferInstanceAs (Decidable (∀ p ∈ avail, ∀ b ∈ p.2, bs ∣ b.start))

instance (avail : Avail) : Decidable (OnDateOK avail) :=
  inferInstanceAs (Decidable (∀ p ∈ avail, ∀ b ∈ p.2, b.start / 1440 = p.1))

instance (avail : Avail) : Decidable (SortedOK avail) :=
  inferInstanceAs (Decidable (∀ p ∈ avail, p.2.Pairwise fun x y : Block => x.start < y.start))

instance (avail : Avail) : Decidable (ContigOK avail) :=
  inferInstanceAs (Decidable (∀ p ∈ avail, p.2.Chain' fun x y : Block => y.start = x.stop))

/-! ### Association-list and marking lemmas -/

theorem alookup_mem {κ : Type} [DecidableEq κ] {α : Type} :
    ∀ {l : List (κ × α)} {k : κ} {v : α}, alookup l k = some v → (k, v) ∈ l := by
  intro l
  induction l with
  | nil => intro k v h; exact absurd h (by simp [alookup])
  | cons p rest ih =>
    intro k v h
    rw [alookup] at h
    split at h
    · rename_i heq
      obtain ⟨p1, p2⟩ := p
      cases h
      simp only at heq
      subst heq
      exact List.mem_cons_self _ _
    · exact List.mem_cons_of_mem _ (ih h)

theorem markBlock_start (s e : Nat) (b : Block) : (markBlock s e b).start = b.start := by
  unfold markBlock; split <;> rfl

theorem markBlock_stop (s e : Nat) (b : Block) : (markBlock s e b).stop = b.stop := by
  unfold markBlock; split <;> rfl

theorem markBlock_mono {s e : Nat} {b : Block} (h : b.booked = true) :
    (markBlock s e b).booked = true := by
  unfold markBlock; split
  · rfl
  · exact h

theorem markBlock_window {s e : Nat} {b : Block} (h1 : s ≤ b.start) (h2 : b.start < e) :
    (markBlock s e b).booked = true := by
  unfold markBlock; rw [if_pos ⟨h1, h2⟩]

theorem markEntry_fst (s e : Nat) (p : Nat × List Block) : (markEntry s e p).1 = p.1 := by
  unfold markEntry; split <;> rfl

theorem markEntry_snd_cases (s e : Nat) (p : Nat × List Block) :
    (markEntry s e p).2 = p.2.map (markBlock s e) ∨ (markEntry s e p).2 = p.2 := by
  unfold markEntry; split
  · exact Or.inl rfl
  · exact Or.inr rfl

theorem mark_ok_eq {avail : Avail} {s e : Nat} {a2 : Avail}
    (h : mark_slot_booked avail s e = .ok a2) : a2 = avail.map (markEntry s e) := by
  rw [mark_slot_booked] at h
  split at h
  · exact (Except.ok.inj h).symm
  · exact absurd h (by simp)

theorem mark_ok_of_key {avail : Avail} {s e : Nat}
    (h : (alookup avail (s / 1440)).isSome) :
    mark_slot_booked avail s e = .ok (avail.map (markEntry s e)) := by
  rw [mark_slot_booked, if_pos h]

theorem alookup_map_markEntry (avail : Avail) (s e : Nat) (d : Nat) :
    alookup (avail.map (markEntry s e)) d =
      if d = s / 1440 then (alookup avail d).map (List.map (markBlock s e))
      else alookup avail d := by
  induction avail with
  | nil => simp [alookup]
  | cons p rest ih =>
    by_cases hd : p.1 = d
    · subst hd
      by_cases hs : p.1 = s / 1440
      · simp [alookup, markEntry, hs, markEntry_fst]
      · simp [alookup, markEntry, hs, markEntry_fst]
    · have hfst : (markEntry s e p).1 = p.1 := markEntry_fst s e p
      rw [List.map_cons, alookup, if_neg (by rw [hfst]; exact hd), ih, alookup,
        if_neg hd]

/-- Every block of a marked calendar entry refines a block of the
original entry: same start and stop, `booked` only ever raised. -/
theorem mem_markEntry {s e : Nat} {p : Nat × List Block} {b : Block}
    (hb : b ∈ (markEntry s e p).2) :
    ∃ b0 ∈ p.2, b.start = b0.start ∧ b.stop = b0.stop ∧
      (b0.booked = true → b.booked = true) := by
  rcases markEntry_snd_cases s e p with hc | hc <;> rw [hc] at hb
  · rcases List.mem_map.mp hb with ⟨b0, hb0, rfl⟩
    exact ⟨b0, hb0, markBlock_start s e b0, markBlock_stop s e b0, markBlock_mono⟩
  · exact ⟨b, hb, rfl, rfl, fun h => h⟩

theorem UniformOK_map_mark {bs : Nat} {avail : Avail} (s e : Nat)
    (h : UniformOK bs avail) : UniformOK bs (avail.map (markEntry s e)) := by
  intro p hp b hb
  rcases List.mem_map.mp hp with ⟨q, hq, rfl⟩
  rcases mem_markEntry hb with ⟨b0, hb0, hst, hsp, _⟩
  rw [hst, hsp]
  exact h q hq b0 hb0

theorem AlignedOK_map_mark {bs : Nat} {avail : Avail} (s e : Nat)
    (h : AlignedOK bs avail) : AlignedOK bs (avail.map (markEntry s e)) := by
  intro p hp b hb
  rcases List.mem_map.mp hp with ⟨q, hq, rfl⟩
  rcases mem_markEntry hb with ⟨b0, hb0, hst, _, _⟩
  rw [hst]
  exact h q hq b0 hb0

theorem OnDateOK_map_mark {avail : Avail} (s e : Nat)
    (h : OnDateOK avail) : OnDateOK (avail.map (markEntry s e)) := by
  intro p hp b hb
  rcases List.mem_map.mp hp with ⟨q, hq, rfl⟩
  rcases mem_markEntry hb with ⟨b0, hb0, hst, _, _⟩
  rw [hst, markEntry_fst]
  exact h q hq b0 hb0

theorem SortedOK_map_mark {avail : Avail} (s e : Nat)
    (h : SortedOK avail) : SortedOK (avail.map (markEntry s e)) := by
  intro p hp
  rcases List.mem_map.mp hp with ⟨q, hq, rfl⟩
  rcases markEntry_snd_cases s e q with hc | hc <;> rw [hc]
  · rw [List.pairwise_map]
    refine (h q hq).imp ?_
    intro a b hab
    rwa [markBlock_start, markBlock_start]
  · exact h q hq

theorem ContigOK_map_mark {avail : Avail} (s e : Nat)
    (h : ContigOK avail) : ContigOK (avail.map (markEntry s e)) := by
  intro p hp
  rcases List.mem_map.mp hp with ⟨q, hq, rfl⟩
  rcases markEntry_snd_cases s e q with hc | hc <;> rw [hc]
  · rw [List.chain'_map]
    refine (h q hq).imp ?_
    intro a b hab
    rwa [markBlock_start, markBlock_stop]
  · exact h q hq

/-! ### Slot-search characterisation (schedule.py `is_slot_available`,
`find_available_slot`) -/

theorem pyIdx_natCast {α : Type} (l : List α) (i : Nat) : pyIdx l (i : Int) = l.get? i := by
  have h1 : ¬ ((i : Int) < 0) := by omega
  rw [pyIdx, if_neg h1, if_pos (by omega)]
  simp

theorem pyIdx_last_of_pos {α : Type} (l : List α) {i nb : Nat} (h : 1 ≤ nb) :
    pyIdx l ((i : Int) + (nb : Int) - 1) = l.get? (i + nb - 1) := by
  have : ((i : Int) + (nb : Int) - 1) = ((i + nb - 1 : Nat) : Int) := by omega
  rw [this, pyIdx_natCast]

/-- With a positive run length `is_slot_available` never raises. -/
theorem isa_total {blocks : List Block} {i nb : Nat} {tr : List (Int × Int)}
    (h1 : 1 ≤ nb) : ∃ v, is_slot_available blocks i nb tr = .ok v := by
  rw [is_slot_available]
  split
  · exact ⟨false, rfl⟩
  · rename_i hguard
    push_neg at hguard
    obtain ⟨hne, hlen⟩ := hguard
    have hi : i < blocks.length := by omega
    have hl : i + nb - 1 < blocks.length := by omega
    split
    · split
      · exact ⟨false, rfl⟩
      · exact ⟨_, rfl⟩
    · rename_i hnone
      exfalso
      rw [pyIdx_natCast, pyIdx_last_of_pos _ h1] at hnone
      exact hnone (blocks.get ⟨i, hi⟩) (blocks.get ⟨i + nb - 1, hl⟩)
        (List.get?_eq_get hi) (List.get?_eq_get hl)

/-- A successful `is_slot_available` gives the run bound and the
unbooked state of every block of the run. -/
theorem isa_true_facts {blocks : List Block} {i nb : Nat} {tr : List (Int × Int)}
    (h : is_slot_available blocks i nb tr = .ok true) :
    i + nb ≤ blocks.length ∧
    ∀ k, k < nb → ∃ b, blocks.get? (i + k) = some b ∧ b.booked = false := by
  rw [is_slot_available] at h
  split at h
  · cases h
  · rename_i hguard
    push_neg at hguard
    obtain ⟨hne, hlen⟩ := hguard
    refine ⟨by omega, ?_⟩
    split at h
    · split at h
      · cases h
      · have hall := Except.ok.inj h
        intro k hk
        have hik : i + k < blocks.length := by omega
        have hmem := List.all_eq_true.mp hall k (List.mem_range.mpr hk)
        rw [List.getD_eq_get?, List.get?_eq_get hik] at hmem
        refine ⟨blocks.get ⟨i + k, hik⟩, List.get?_eq_get hik, ?_⟩
        simpa using hmem
    · exact Except.noConfusion h

/-- With an empty preferred-time list and a positive run length, the slot
test always returns `False` (the `in_preferred_time` flag can never be
set). -/
theorem isa_empty_tr {blocks : List Block} {i nb : Nat} (h1 : 1 ≤ nb) :
    is_slot_available blocks i nb [] = .ok false := by
  rw [is_slot_available]
  split
  · rfl
  · rename_i hguard
    push_neg at hguard
    obtain ⟨hne, hlen⟩ := hguard
    have hi : i < blocks.length := by omega
    have hl : i + nb - 1 < blocks.length := by omega
    split
    · simp
    · rename_i hnone
      exfalso
      rw [pyIdx_natCast, pyIdx_last_of_pos _ h1] at hnone
      exact hnone (blocks.get ⟨i, hi⟩) (blocks.get ⟨i + nb - 1, hl⟩)
        (List.get?_eq_get hi) (List.get?_eq_get hl)

/-- A successful search of `find_available_slot`'s index loop pins the
returned slot to a concrete run: index, bound, test success, and the
first block's start / last block's end. -/
theorem findSlotLoop_some {blocks : List Block} {nb : Nat} {pref : List (Int × Int)}
    {s e : Nat} (h1 : 1 ≤ nb) :
    ∀ {idxs : List Nat}, findSlotLoop blocks nb pref idxs = .ok (some (s, e)) →
    ∃ i, i ∈ idxs ∧ is_slot_available blocks i nb pref = .ok true ∧
      i + nb ≤ blocks.length ∧
      ∃ hi : i < blocks.length, ∃ hl : i + nb - 1 < blocks.length,
        (blocks.get ⟨i, hi⟩).start = s ∧ (blocks.get ⟨i + nb - 1, hl⟩).stop = e := by
  intro idxs
  induction idxs with
  | nil =>
    intro h
    rw [findSlotLoop] at h
    exact absurd (Except.ok.inj h) (by simp)
  | cons i rest ih =>
    intro h
    rw [findSlotLoop] at h
    split at h
    · exact Except.noConfusion h
    · rename_i htrue
      obtain ⟨hbound, _⟩ := isa_true_facts htrue
      have hi : i < blocks.length := by omega
      have hl : i + nb - 1 < blocks.length := by omega
      split at h
      · rename_i first last hfirst hlast
        rw [pyIdx_natCast, List.get?_eq_get hi] at hfirst
        rw [pyIdx_last_of_pos _ h1, List.get?_eq_get hl] at hlast
        have hse := Option.some.inj (Except.ok.inj h)
        refine ⟨i, List.mem_cons_self _ _, htrue, hbound, hi, hl, ?_, ?_⟩
        · rw [Option.some.inj hfirst]
          exact congrArg Prod.fst hse
        · rw [Option.some.inj hlast]
          exact congrArg Prod.snd hse
      · exact Except.noConfusion h
    · rename_i hfalse
      rcases ih h with ⟨j, hj, rest'⟩
      exact ⟨j, List.mem_cons_of_mem _ hj, rest'⟩

/-- The index loop never raises when the run length is positive. -/
theorem findSlotLoop_total {blocks : List Block} {nb : Nat} {pref : List (Int × Int)}
    (h1 : 1 ≤ nb) :
    ∀ idxs : List Nat, ∃ r, findSlotLoop blocks nb pref idxs = .ok r := by
  intro idxs
  induction idxs with
  | nil => exact ⟨none, rfl⟩
  | cons i rest ih =>
    obtain ⟨v, hv⟩ := @isa_total blocks i nb pref h1
    cases v with
    | false =>
      obtain ⟨r, hr⟩ := ih
      exact ⟨r, by rw [findSlotLoop, hv]; exact hr⟩
    | true =>
      obtain ⟨hbound, _⟩ := isa_true_facts hv
      have hi : i < blocks.length := by omega
      have hl : i + nb - 1 < blocks.length := by omega
      refine ⟨some ((blocks.get ⟨i, hi⟩).start, (blocks.get ⟨i + nb - 1, hl⟩).stop), ?_⟩
      rw [findSlotLoop, hv, pyIdx_natCast, pyIdx_last_of_pos _ h1,
        List.get?_eq_get hi, List.get?_eq_get hl]

/-- A successful `find_available_slot` result is the span of a concrete
run of consecutive list entries of the looked-up date's block list. -/
theorem find_slot_some {avail : Avail} {current duration bs s e : Nat}
    {tr : List (Int × Int)} (h1 : 1 ≤ duration / bs)
    (h : find_available_slot avail current duration tr bs = .ok (some (s, e))) :
    ∃ blocks, alookup avail (dateOf current) = some blocks ∧
    ∃ i, i + duration / bs ≤ blocks.length ∧
      is_slot_available blocks i (duration / bs) tr = .ok true ∧
      ∃ hi : i < blocks.length, ∃ hl : i + duration / bs - 1 < blocks.length,
        (blocks.get ⟨i, hi⟩).start = s ∧ (blocks.get ⟨i + duration / bs - 1, hl⟩).stop = e := by
  rw [find_available_slot] at h
  split at h
  · exact absurd (Except.ok.inj h) (by simp)
  · rename_i blocks hblocks
    split at h
    · exact absurd (Except.ok.inj h) (by simp)
    · rcases findSlotLoop_some h1 h with ⟨i, _, htrue, hbound, hi, hl, hs, he⟩
      exact ⟨blocks, hblocks, i, hbound, htrue, hi, hl, hs, he⟩

/-- `find_available_slot` never raises when the run length is positive. -/
theorem find_slot_total {avail : Avail} {current duration bs : Nat}
    {tr : List (Int × Int)} (h1 : 1 ≤ duration / bs) :
    ∃ r, find_available_slot avail current duration tr bs = .ok r := by
  rcases hlk : alookup avail (dateOf current) with _ | blocks
  · exact ⟨none, by rw [find_available_slot, hlk]⟩
  · by_cases hb : blocks = []
    · subst hb
      exact ⟨none, by rw [find_available_slot, hlk]; rfl⟩
    · obtain ⟨r, hr⟩ := findSlotLoop_total h1
        (List.range (blocks.length + 1 - duration / bs))
      have hred : find_available_slot avail current duration tr bs
          = findSlotLoop blocks (duration / bs) tr
            (List.range (blocks.length + 1 - duration / bs)) := by
        rw [find_available_slot, hlk]
        exact if_neg hb
      exact ⟨r, by rw [hred]; exact hr⟩

/-- With an empty preferred-time list, pass 1's slot search finds
nothing. -/
theorem find_slot_empty_tr {avail : Avail} {current duration bs : Nat}
    (h1 : 1 ≤ duration / bs) :
    find_available_slot avail current duration [] bs = .ok none := by
  rcases hlk : alookup avail (dateOf current) with _ | blocks
  · rw [find_available_slot, hlk]
  · by_cases hb : blocks = []
    · subst hb
      rw [find_available_slot, hlk]
      rfl
    · have hred : find_available_slot avail current duration [] bs
          = findSlotLoop blocks (duration / bs) []
            (List.range (blocks.length + 1 - duration / bs)) := by
        rw [find_available_slot, hlk]
        exact if_neg hb
      rw [hred]
      generalize List.range (blocks.length + 1 - duration / bs) = idxs
      induction idxs with
      | nil => rfl
      | cons i rest ih => rw [findSlotLoop, isa_empty_tr h1]; exact ih

/-! ### Generic induction principles over the scheduling loops -/

/-- Any property of the run state preserved by a booking step is an
invariant of one pass over a date list. -/
theorem passLoop_ind (name : String) (duration : Nat) (blocked : List Nat)
    (tr : List (Int × Int)) (bs : Nat) (wk : Int)
    (P : St → Prop) (Q : Nat → Prop)
    (hstep : ∀ st current slot avail2,
      P st → Q current →
      blocked.contains current = false →
      st.used.contains (current / 1440) = false →
      0 < st.left →
      find_available_slot st.avail current duration tr bs = .ok (some slot) →
      mark_slot_booked st.avail slot.1 slot.2 = .ok avail2 →
      P { sched := appendSession st.sched name ⟨slot.1, slot.2⟩, avail := avail2,
          weekly := weeklyInc st.weekly wk, used := st.used ++ [current / 1440],
          left := st.left - 1 }) :
    ∀ dates st st', (∀ c ∈ dates, Q c) → P st →
      passLoop name duration blocked tr bs wk dates st = .ok st' → P st' := by
  intro dates
  induction dates with
  | nil =>
    intro st st' _ hP h
    rw [passLoop] at h
    obtain rfl := Except.ok.inj h
    exact hP
  | cons current rest ih =>
    intro st st' hQ hP h
    rw [passLoop] at h
    split at h
    · obtain rfl := Except.ok.inj h
      exact hP
    · rename_i hleft
      split at h
      · rename_i hcond
        split at h
        · exact Except.noConfusion h
        · exact ih st st' (fun c hc => hQ c (List.mem_cons_of_mem _ hc)) hP h
        · rename_i slot hfind
          split at h
          · exact Except.noConfusion h
          · rename_i avail2 hmark
            exact ih _ st' (fun c hc => hQ c (List.mem_cons_of_mem _ hc))
              (hstep st current slot avail2 hP (hQ current (List.mem_cons_self _ _))
                hcond.1 hcond.2 (by omega) hfind hmark) h
      · exact ih st st' (fun c hc => hQ c (List.mem_cons_of_mem _ hc)) hP h

theorem mem_sortDates {dates pd : List Nat} {c : Nat} (h : c ∈ sortDates dates pd) :
    c ∈ dates := by
  rcases List.mem_append.mp h with h | h <;> exact (List.mem_filter.mp h).1

/-- Invariant preservation lifted to one span (both passes). -/
theorem scheduleSpan_ind (client : Client) (bs sd a b : Nat)
    (P : St → Prop) (Q : Nat → Prop)
    (hframe : ∀ st u l, P st → P { st with used := u, left := l })
    (hQ : ∀ c ∈ spanDates a b, Q c)
    (hstep : ∀ tr, tr = client.preferred_times ∨ tr = [(0, 24)] →
      ∀ st current slot avail2, P st → Q current →
      client.blocked_dates.contains current = false →
      st.used.contains (current / 1440) = false →
      0 < st.left →
      find_available_slot st.avail current client.session_duration tr bs = .ok (some slot) →
      mark_slot_booked st.avail slot.1 slot.2 = .ok avail2 →
      P { sched := appendSession st.sched client.name ⟨slot.1, slot.2⟩, avail := avail2,
          weekly := weeklyInc st.weekly (getWeekNumber a sd),
          used := st.used ++ [current / 1440], left := st.left - 1 }) :
    ∀ st st', P st → scheduleSpan client bs sd a b st = .ok st' → P st' := by
  intro st st' hP h
  simp only [scheduleSpan] at h
  split at h
  · obtain rfl := Except.ok.inj h
    exact hP
  · have hQ' : ∀ c ∈ sortDates (spanDates a b) client.preferred_days, Q c :=
      fun c hc => hQ c (mem_sortDates hc)
    split at h
    · exact Except.noConfusion h
    · rename_i st1 hpass1
      have hP1 : P st1 :=
        passLoop_ind client.name client.session_duration client.blocked_dates
          client.preferred_times bs (getWeekNumber a sd) P Q
          (hstep client.preferred_times (Or.inl rfl)) _ _ st1 hQ'
          (hframe st [] _ hP) hpass1
      split at h
      · exact passLoop_ind client.name client.session_duration client.blocked_dates
          [(0, 24)] bs (getWeekNumber a sd) P Q
          (hstep [(0, 24)] (Or.inr rfl)) _ st1 st' hQ' hP1 h
      · obtain rfl := Except.ok.inj h
        exact hP1

/-- Invariant preservation over the span list. -/
theorem foldSpans_ind (client : Client) (bs sd : Nat) (P : St → Prop) :
    ∀ spans : List (Nat × Nat),
    (∀ a b st t', (a, b) ∈ spans → P st →
      scheduleSpan client bs sd a b st = .ok t' → P t') →
    ∀ st st', P st → foldSpans client bs sd spans st = .ok st' → P st' := by
  intro spans
  induction spans with
  | nil =>
    intro _ st st' hP h
    obtain rfl := Except.ok.inj h
    exact hP
  | cons p rest ih =>
    intro hspan st st' hP h
    obtain ⟨a, b⟩ := p
    rw [foldSpans] at h
    split at h
    · exact Except.noConfusion h
    · rename_i st1 hst1
      exact ih (fun a' b' t t' hmem => hspan a' b' t t' (List.mem_cons_of_mem _ hmem))
        st1 st' (hspan a b st st1 (List.mem_cons_self _ _) hP hst1) h

/-- Invariant preservation over one whole client. -/
theorem processClient_ind (client : Client) (bs sd ed : Nat) (P : St → Prop)
    (hreset : ∀ st, P st →
      P { st with sched := schedSet st.sched client.name [], weekly := [] })
    (hspan : ∀ a b st t', (a, b) ∈ weekSpans sd ed → P st →
      scheduleSpan client bs sd a b st = .ok t' → P t') :
    ∀ st st', P st → processClient client bs sd ed st = .ok st' → P st' := by
  intro st st' hP h
  rw [processClient] at h
  exact foldSpans_ind client bs sd P (weekSpans sd ed) hspan _ st' (hreset st hP) h

/-- Invariant preservation over the ranked client list. -/
theorem foldClients_ind (bs sd ed : Nat) (P : St → Prop) :
    ∀ cs : List Client,
    (∀ c ∈ cs, ∀ t t', P t → processClient c bs sd ed t = .ok t' → P t') →
    ∀ st st', P st → foldClients bs sd ed cs st = .ok st' → P st' := by
  intro cs
  induction cs with
  | nil =>
    intro _ st st' hP h
    obtain rfl := Except.ok.inj h
    exact hP
  | cons c rest ih =>
    intro hcl st st' hP h
    rw [foldClients] at h
    split at h
    · exact Except.noConfusion h
    · rename_i st1 hst1
      exact ih (fun c' hc' => hcl c' (List.mem_cons_of_mem _ hc'))
        st1 st' (hcl c (List.mem_cons_self _ _) st st1 hP hst1) h

/-! ### Totality of the run (claim C9) -/

/-- With run length at least one block and every block on its keyed
date, a pass never raises. -/
theorem passLoop_total (name : String) (duration : Nat) (blocked : List Nat)
    (tr : List (Int × Int)) (bs : Nat) (wk : Int) (h1 : 1 ≤ duration / bs) :
    ∀ (dates : List Nat) (st : St), OnDateOK st.avail →
      ∃ st', passLoop name duration blocked tr bs wk dates st = .ok st' ∧
        OnDateOK st'.avail := by
  intro dates
  induction dates with
  | nil => intro st hA; exact ⟨st, rfl, hA⟩
  | cons current rest ih =>
    intro st hA
    by_cases hleft : st.left ≤ 0
    · exact ⟨st, by rw [passLoop]; exact if_pos hleft, hA⟩
    · by_cases hcond : blocked.contains current = false ∧
          st.used.contains (current / 1440) = false
      · obtain ⟨r, hr⟩ := @find_slot_total st.avail current duration bs tr h1
        cases r with
        | none =>
          obtain ⟨st', hps, hA'⟩ := ih st hA
          refine ⟨st', ?_, hA'⟩
          have hred : passLoop name duration blocked tr bs wk (current :: rest) st
              = passLoop name duration blocked tr bs wk rest st := by
            rw [passLoop, if_neg hleft, if_pos hcond, hr]
          rw [hred]; exact hps
        | some slot =>
          rcases find_slot_some h1 hr with ⟨blocks, hblocks, i, hbound, _, hi, hl, hs, _⟩
          have hmem : (dateOf current, blocks) ∈ st.avail := alookup_mem hblocks
          have hkey : slot.1 / 1440 = dateOf current := by
            rw [← hs]; exact hA _ hmem _ (blocks.get_mem _ _)
          have hsome : (alookup st.avail (slot.1 / 1440)).isSome := by
            rw [hkey, hblocks]; rfl
          have hmark := @mark_ok_of_key st.avail slot.1 slot.2 hsome
          obtain ⟨st', hps, hA'⟩ := ih
            { sched := appendSession st.sched name ⟨slot.1, slot.2⟩,
              avail := st.avail.map (markEntry slot.1 slot.2),
              weekly := weeklyInc st.weekly wk, used := st.used ++ [current / 1440],
              left := st.left - 1 } (OnDateOK_map_mark _ _ hA)
          refine ⟨st', ?_, hA'⟩
          have hred : passLoop name duration blocked tr bs wk (current :: rest) st
              = passLoop name duration blocked tr bs wk rest
                { sched := appendSession st.sched name ⟨slot.1, slot.2⟩,
                  avail := st.avail.map (markEntry slot.1 slot.2),
                  weekly := weeklyInc st.weekly wk, used := st.used ++ [current / 1440],
                  left := st.left - 1 } := by
            rw [passLoop, if_neg hleft, if_pos hcond, hr]
            simp only [hmark]
          rw [hred]; exact hps
      · obtain ⟨st', hps, hA'⟩ := ih st hA
        refine ⟨st', ?_, hA'⟩
        have hred : passLoop name duration blocked tr bs wk (current :: rest) st
            = passLoop name duration blocked tr bs wk rest st := by
          rw [passLoop, if_neg hleft, if_neg hcond]
        rw [hred]; exact hps

theorem scheduleSpan_total (client : Client) (bs sd a b : Nat)
    (h1 : 1 ≤ client.session_duration / bs) :
    ∀ st, OnDateOK st.avail →
      ∃ st', scheduleSpan client bs sd a b st = .ok st' ∧ OnDateOK st'.avail := by
  intro st hA
  by_cases hskip : (client.num_weekly_sessions : Int)
      - (weeklyGet st.weekly (getWeekNumber a sd) : Nat) ≤ 0
  · refine ⟨st, ?_, hA⟩
    simp only [scheduleSpan]
    rw [if_pos hskip]
  · obtain ⟨st1, hp1, hA1⟩ := passLoop_total client.name client.session_duration
      client.blocked_dates client.preferred_times bs (getWeekNumber a sd) h1
      (sortDates (spanDates a b) client.preferred_days)
      { st with used := [], left := ((client.num_weekly_sessions : Int) - (weeklyGet st.weekly (getWeekNumber a sd) : Nat)) } hA
    have hred : scheduleSpan client bs sd a b st
        = if 0 < st1.left then
            passLoop client.name client.session_duration client.blocked_dates
              [(0, 24)] bs (getWeekNumber a sd)
              (sortDates (spanDates a b) client.preferred_days) st1
          else .ok st1 := by
      simp only [scheduleSpan]
      rw [if_neg hskip, hp1]
    by_cases h2 : 0 < st1.left
    · obtain ⟨st2, hp2, hA2⟩ := passLoop_total client.name client.session_duration
        client.blocked_dates [(0, 24)] bs (getWeekNumber a sd) h1
        (sortDates (spanDates a b) client.preferred_days) st1 hA1
      exact ⟨st2, by rw [hred, if_pos h2]; exact hp2, hA2⟩
    · exact ⟨st1, by rw [hred, if_neg h2], hA1⟩

theorem foldSpans_total (client : Client) (bs sd : Nat)
    (h1 : 1 ≤ client.session_duration / bs) :
    ∀ (spans : List (Nat × Nat)) (st : St), OnDateOK st.avail →
      ∃ st', foldSpans client bs sd spans st = .ok st' ∧ OnDateOK st'.avail := by
  intro spans
  induction spans with
  | nil => intro st hA; exact ⟨st, rfl, hA⟩
  | cons p rest ih =>
    intro st hA
    obtain ⟨a, b⟩ := p
    obtain ⟨st1, hsp, hA1⟩ := scheduleSpan_total client bs sd a b h1 st hA
    obtain ⟨st', hps, hA'⟩ := ih st1 hA1
    refine ⟨st', ?_, hA'⟩
    rw [foldSpans, hsp]
    exact hps

theorem processClient_total (client : Client) (bs sd ed : Nat)
    (h1 : 1 ≤ client.session_duration / bs) :
    ∀ st, OnDateOK st.avail →
      ∃ st', processClient client bs sd ed st = .ok st' ∧ OnDateOK st'.avail := by
  intro st hA
  obtain ⟨st', hps, hA'⟩ := foldSpans_total client bs sd h1 (weekSpans sd ed)
    { st with sched := schedSet st.sched client.name [], weekly := [] } hA
  exact ⟨st', hps, hA'⟩

theorem foldClients_total (bs sd ed : Nat) :
    ∀ cs : List Client, (∀ c ∈ cs, 1 ≤ c.session_duration / bs) →
    ∀ st : St, OnDateOK st.avail →
      ∃ st', foldClients bs sd ed cs st = .ok st' ∧ OnDateOK st'.avail := by
  intro cs
  induction cs with
  | nil => intro _ st hA; exact ⟨st, rfl, hA⟩
  | cons c rest ih =>
    intro hdur st hA
    obtain ⟨st1, hpc, hA1⟩ := processClient_total c bs sd ed
      (hdur c (List.mem_cons_self _ _)) st hA
    obtain ⟨st', hps, hA'⟩ := ih (fun c' hc' => hdur c' (List.mem_cons_of_mem _ hc')) st1 hA1
    refine ⟨st', ?_, hA'⟩
    rw [foldClients, hpc]
    exact hps

/-- Claim C9 (amended): empty client or availability tables yield the
empty schedule rather than raising; and no exception escapes provided
every client's `session_duration` is at least the block granularity (a
client below it can crash the `num_blocks = 0` index scan, as the
counterexample shows) and every availability block lies on its keyed
date (otherwise `_mark_slot_booked` can raise `KeyError`). -/
theorem C9_no_crash :
    ∀ (clients : List Client) (rows : List TimeSlot) (sd ed bs : Nat),
    (schedule_sessions [] rows sd ed bs = .ok [] ∧
      schedule_sessions clients [] sd ed bs = .ok []) ∧
    (0 < bs → (∀ c ∈ clients, bs ≤ c.session_duration) →
      OnDateOK (create_availability_blocks rows) →
      ∃ sched, schedule_sessions clients rows sd ed bs = .ok sched) := by
  intro clients rows sd ed bs
  constructor
  · constructor
    · rfl
    · cases clients with
      | nil => rfl
      | cons c cs =>
        simp [schedule_sessions]
  · intro hbs hdur hA
    by_cases hempty : clients.isEmpty = true ∨ rows.isEmpty = true
    · exact ⟨[], by rw [schedule_sessions, if_pos hempty]⟩
    · have hdur' : ∀ c ∈ rankClients clients, 1 ≤ c.session_duration / bs := by
        intro c hc
        have hcmem : c ∈ clients := (rankClients_perm clients).mem_iff.mp hc
        exact (Nat.one_le_div_iff hbs).mpr (hdur c hcmem)
      obtain ⟨stf, hf, _⟩ := foldClients_total bs sd ed (rankClients clients) hdur'
        { sched := [], avail := create_availability_blocks rows,
          weekly := [], used := [], left := 0 } hA
      refine ⟨stf.sched, ?_⟩
      rw [schedule_sessions, if_neg hempty, hf]

/-- Claim C9 (witness): a concrete one-client, one-block run satisfying
the amended hypotheses, evaluated through the no-crash theorem. -/
theorem C9_witness :
    (0 < 15) ∧ (∀ c ∈ [(⟨"E", 15, 1, [(0, 24)], [], []⟩ : Client)], 15 ≤ c.session_duration) ∧
    OnDateOK (create_availability_blocks [⟨0, 540, 555⟩]) ∧
    ∃ sched, schedule_sessions [⟨"E", 15, 1, [(0, 24)], [], []⟩] [⟨0, 540, 555⟩] 0 0 15
      = .ok sched :=
  ⟨by decide, by decide, by decide,
    (C9_no_crash [⟨"E", 15, 1, [(0, 24)], [], []⟩] [⟨0, 540, 555⟩] 0 0 15).2
      (by decide) (by decide) (by decide)⟩

/-! ### Empty preferred-time behaviour (claim C10) -/

/-- The span scheduler with pass 1 skipped: only the relaxed `(0, 24)`
pass runs.  Stated from the spec's description of the pass-2 fallback,
for comparison with `scheduleSpan`. -/
def scheduleSpanRelaxedOnly (client : Client) (block_size : Nat) (start_date : Nat)
    (span_start span_stop : Nat) (st : St) : Except Unit St :=
  let wk := getWeekNumber span_start start_date
  let sessions_left : Int :=
    (client.num_weekly_sessions : Int) - (weeklyGet st.weekly wk : Nat)
  if sessions_left ≤ 0 then .ok st
  else
    passLoop client.name client.session_duration client.blocked_dates [(0, 24)]
      block_size wk (sortDates (spanDates span_start span_stop) client.preferred_days)
      { st with used := [], left := sessions_left }

/-- With an empty preferred-time list, a whole pass leaves the state
untouched. -/
theorem passLoop_empty_tr (name : String) (duration : Nat) (blocked : List Nat)
    (bs : Nat) (wk : Int) (h1 : 1 ≤ duration / bs) :
    ∀ (dates : List Nat) (st : St),
      passLoop name duration blocked [] bs wk dates st = .ok st := by
  intro dates
  induction dates with
  | nil => intro st; rfl
  | cons current rest ih =>
    intro st
    by_cases hleft : st.left ≤ 0
    · rw [passLoop]; exact if_pos hleft
    · by_cases hcond : blocked.contains current = false ∧
          st.used.contains (current / 1440) = false
      · rw [passLoop, if_neg hleft, if_pos hcond,
          @find_slot_empty_tr st.avail current duration bs h1]
        exact ih st
      · rw [passLoop, if_neg hleft, if_neg hcond]
        exact ih st

/-- Claim C10 (amended): with an empty preferred-time list the slot test
never returns True, and returns False whenever the run length is positive
(the counterexample shows the remaining case raises instead of returning
False); consequently a client whose preferred-times string parses to an
empty list books nothing in pass 1, and span scheduling collapses to the
pass-2 fallback over the single unrestricted range (0, 24). -/
theorem C10_empty_preferred :
    (∀ (blocks : List Block) (i nb : Nat), is_slot_available blocks i nb [] ≠ .ok true) ∧
    (∀ (blocks : List Block) (i nb : Nat), 1 ≤ nb →
      is_slot_available blocks i nb [] = .ok false) ∧
    (∀ (s : String) (name : String) (duration : Nat) (blocked : List Nat) (bs : Nat)
        (wk : Int) (dates : List Nat) (st : St),
      parse_time_range s = [] → 1 ≤ duration / bs →
      passLoop name duration blocked (parse_time_range s) bs wk dates st = .ok st) ∧
    (∀ (client : Client) (bs sd a b : Nat) (st : St),
      client.preferred_times = [] → 1 ≤ client.session_duration / bs →
      scheduleSpan client bs sd a b st = scheduleSpanRelaxedOnly client bs sd a b st) := by
  refine ⟨?_, fun blocks i nb h1 => isa_empty_tr h1, ?_, ?_⟩
  · intro blocks i nb h
    rw [is_slot_available] at h
    split at h
    · exact absurd (Except.ok.inj h) (by simp)
    · split at h
      · simp at h
      · exact Except.noConfusion h
  · intro s name duration blocked bs wk dates st hs h1
    rw [hs]
    exact passLoop_empty_tr name duration blocked bs wk h1 dates st
  · intro client bs sd a b st hpref h1
    simp only [scheduleSpan, scheduleSpanRelaxedOnly]
    by_cases hskip : (client.num_weekly_sessions : Int)
        - (weeklyGet st.weekly (getWeekNumber a sd) : Nat) ≤ 0
    · rw [if_pos hskip, if_pos hskip]
    · have hpl := passLoop_empty_tr client.name client.session_duration
        client.blocked_dates bs (getWeekNumber a sd) h1
        (sortDates (spanDates a b) client.preferred_days)
        { st with used := [], left := ((client.num_weekly_sessions : Int) - (weeklyGet st.weekly (getWeekNumber a sd) : Nat)) }
      rw [if_neg hskip, if_neg hskip, hpref, hpl]
      refine if_pos ?_
      show (0 : Int) < (client.num_weekly_sessions : Int)
        - (weeklyGet st.weekly (getWeekNumber a sd) : Nat)
      omega

/-- Claim C10 (witness): a string that parses to no time ranges makes a
concrete pass 1 a no-op on a two-block day. -/
theorem C10_witness :
    parse_time_range ("anytime") = [] ∧ 1 ≤ 30 / 15 ∧
    passLoop ("Z") 30 [] (parse_time_range ("anytime")) 15 0 [0]
        ⟨[("Z", [])], [(0, [⟨540, 555, false⟩, ⟨555, 570, false⟩])], [], [], 1⟩
      = .ok ⟨[("Z", [])], [(0, [⟨540, 555, false⟩, ⟨555, 570, false⟩])], [], [], 1⟩ :=
  ⟨by decide, by decide,
    C10_empty_preferred.2.2.1 ("anytime") ("Z") 30 [] 15 0 [0]
      ⟨[("Z", [])], [(0, [⟨540, 555, false⟩, ⟨555, 570, false⟩])], [], [], 1⟩
      (by decide) (by decide)⟩

/-! ### Weekly-quota tracking (claim C3) -/

/-- Total session count recorded in the weekly tracker. -/
def sumWeekly (w : List (Int × Nat)) : Nat := (w.map Prod.snd).sum

theorem weeklyGet_inc_self (w : List (Int × Nat)) (k : Int) :
    weeklyGet (weeklyInc w k) k = weeklyGet w k + 1 := by
  induction w with
  | nil => simp [weeklyInc, weeklyGet, alookup]
  | cons p rest ih =>
    by_cases hp : p.1 = k
    · simp [weeklyInc, weeklyGet, alookup, hp]
    · simp only [weeklyInc, if_neg hp]
      simpa [weeklyGet, alookup, hp] using ih

theorem weeklyGet_inc_other (w : List (Int × Nat)) (k k' : Int) (h : k' ≠ k) :
    weeklyGet (weeklyInc w k) k' = weeklyGet w k' := by
  have hks : k ≠ k' := Ne.symm h
  induction w with
  | nil => simp [weeklyInc, weeklyGet, alookup, hks]
  | cons p rest ih =>
    by_cases hp : p.1 = k
    · subst hp
      simp [weeklyInc, weeklyGet, alookup, hks]
    · simp only [weeklyInc, if_neg hp]
      by_cases hq : p.1 = k'
      · simp [weeklyGet, alookup, hq]
      · simpa [weeklyGet, alookup, hq] using ih

theorem sumWeekly_inc (w : List (Int × Nat)) (k : Int) :
    sumWeekly (weeklyInc w k) = sumWeekly w + 1 := by
  induction w with
  | nil => simp [weeklyInc, sumWeekly]
  | cons p rest ih =>
    by_cases hp : p.1 = k
    · simp only [weeklyInc, if_pos hp]
      simp only [sumWeekly, List.map_cons, List.sum_cons]
      omega
    · simp only [weeklyInc, if_neg hp]
      simp only [sumWeekly, List.map_cons, List.sum_cons] at ih ⊢
      omega

theorem alookup_appendSession_self (s : Schedule) (n : String) (x : Session) :
    alookup (appendSession s n x) n = (alookup s n).map fun l => l ++ [x] := by
  induction s with
  | nil => simp [appendSession, alookup]
  | cons p rest ih =>
    by_cases hp : p.1 = n
    · simp [appendSession, alookup, hp]
    · simp only [appendSession, if_neg hp]
      simpa [alookup, hp] using ih

theorem alookup_appendSession_other (s : Schedule) (n n' : String) (x : Session)
    (h : n' ≠ n) : alookup (appendSession s n x) n' = alookup s n' := by
  induction s with
  | nil => simp [appendSession, alookup]
  | cons p rest ih =>
    by_cases hp : p.1 = n
    · subst hp
      have hps : p.1 ≠ n' := Ne.symm h
      simp [appendSession, alookup, hps]
    · simp only [appendSession, if_neg hp]
      by_cases hq : p.1 = n'
      · simp [alookup, hq]
      · simpa [alookup, hq] using ih

theorem alookup_schedSet_self (s : Schedule) (n : String) (v : List Session) :
    alookup (schedSet s n v) n = some v := by
  induction s with
  | nil => simp [schedSet, alookup]
  | cons p rest ih =>
    by_cases hp : p.1 = n
    · simp [schedSet, alookup, hp]
    · simp only [schedSet, if_neg hp]
      simpa [alookup, hp] using ih

theorem alookup_schedSet_other (s : Schedule) (n n' : String) (v : List Session)
    (h : n' ≠ n) : alookup (schedSet s n v) n' = alookup s n' := by
  have hns : n ≠ n' := Ne.symm h
  induction s with
  | nil => simp [schedSet, alookup, hns]
  | cons p rest ih =>
    by_cases hp : p.1 = n
    · subst hp
      simp [schedSet, alookup, hns]
    · simp only [schedSet, if_neg hp]
      by_cases hq : p.1 = n'
      · simp [alookup, hq]
      · simpa [alookup, hq] using ih

/-- In-span quota invariant: every bucket within quota, the current
bucket's count coupled to `sessions_left`, and the client's entry length
equal to the tracker's total. -/
def C3Inv (name : String) (quota : Nat) (wk : Int) (st : St) : Prop :=
  (∀ w : Int, weeklyGet st.weekly w ≤ quota) ∧
  ((weeklyGet st.weekly wk : Int) = (quota : Int) - st.left) ∧
  0 ≤ st.left ∧
  (∃ l, alookup st.sched name = some l ∧ l.length = sumWeekly st.weekly)

/-- Between-span quota invariant. -/
def C3Between (name : String) (quota : Nat) (st : St) : Prop :=
  (∀ w : Int, weeklyGet st.weekly w ≤ quota) ∧
  (∃ l, alookup st.sched name = some l ∧ l.length = sumWeekly st.weekly)

theorem C3_step (name : String) (quota : Nat) (wk : Int) (st : St) (x : Session)
    (A : Avail) (U : List Nat) (hP : C3Inv name quota wk st) (hleft : 0 < st.left) :
    C3Inv name quota wk
      { sched := appendSession st.sched name x, avail := A,
        weekly := weeklyInc st.weekly wk, used := U, left := st.left - 1 } := by
  obtain ⟨hq, hcouple, hnn, l, hl, hlen⟩ := hP
  refine ⟨?_, ?_, by simp; omega, ⟨l ++ [x], ?_, ?_⟩⟩
  · intro w
    by_cases hw : w = wk
    · subst hw
      rw [weeklyGet_inc_self]
      omega
    · rw [weeklyGet_inc_other _ _ _ hw]
      exact hq w
  · show (weeklyGet (weeklyInc st.weekly wk) wk : Int) = (quota : Int) - (st.left - 1)
    rw [weeklyGet_inc_self]
    push_cast
    omega
  · show alookup (appendSession st.sched name x) name = some (l ++ [x])
    rw [alookup_appendSession_self, hl]
    rfl
  · show (l ++ [x]).length = sumWeekly (weeklyInc st.weekly wk)
    rw [List.length_append, sumWeekly_inc, hlen]
    rfl

theorem scheduleSpan_C3 (client : Client) (bs sd a b : Nat) :
    ∀ st st', C3Between client.name client.num_weekly_sessions st →
      scheduleSpan client bs sd a b st = .ok st' →
      C3Between client.name client.num_weekly_sessions st' := by
  intro st st' hB h
  simp only [scheduleSpan] at h
  split at h
  · obtain rfl := Except.ok.inj h
    exact hB
  · rename_i hskip
    have hInv0 : C3Inv client.name client.num_weekly_sessions (getWeekNumber a sd)
        { st with used := [], left := ((client.num_weekly_sessions : Int) - (weeklyGet st.weekly (getWeekNumber a sd) : Nat)) } := by
      refine ⟨hB.1, ?_, by simp; omega, hB.2⟩
      show (weeklyGet st.weekly (getWeekNumber a sd) : Int)
        = (client.num_weekly_sessions : Int)
          - ((client.num_weekly_sessions : Int) - (weeklyGet st.weekly (getWeekNumber a sd) : Nat))
      omega
    split at h
    · exact Except.noConfusion h
    · rename_i st1 hpass1
      have hInv1 : C3Inv client.name client.num_weekly_sessions (getWeekNumber a sd) st1 :=
        passLoop_ind client.name client.session_duration client.blocked_dates
          client.preferred_times bs (getWeekNumber a sd)
          (C3Inv client.name client.num_weekly_sessions (getWeekNumber a sd))
          (fun _ => True)
          (fun t current slot avail2 hP _ _ _ hlf _ _ =>
            C3_step client.name client.num_weekly_sessions (getWeekNumber a sd) t
              ⟨slot.1, slot.2⟩ avail2 (t.used ++ [current / 1440]) hP hlf)
          _ _ st1 (fun _ _ => trivial) hInv0 hpass1
      split at h
      · have hInv2 := passLoop_ind client.name client.session_duration
          client.blocked_dates [(0, 24)] bs (getWeekNumber a sd)
          (C3Inv client.name client.num_weekly_sessions (getWeekNumber a sd))
          (fun _ => True)
          (fun t current slot avail2 hP _ _ _ hlf _ _ =>
            C3_step client.name client.num_weekly_sessions (getWeekNumber a sd) t
              ⟨slot.1, slot.2⟩ avail2 (t.used ++ [current / 1440]) hP hlf)
          _ st1 st' (fun _ _ => trivial) hInv1 h
        exact ⟨hInv2.1, hInv2.2.2.2⟩
      · obtain rfl := Except.ok.inj h
        exact ⟨hInv1.1, hInv1.2.2.2⟩

/-- Claim C3: processing one client books, in every week bucket, at most
`num_weekly_sessions` sessions (the tracker value), and the client's
session list has exactly as many sessions as the tracker records in
total, so per-bucket consumption is bounded by the quota. -/
theorem C3_weekly_quota_respected :
    ∀ (client : Client) (bs sd ed : Nat) (st st' : St),
      processClient client bs sd ed st = .ok st' →
      (∀ w : Int, weeklyGet st'.weekly w ≤ client.num_weekly_sessions) ∧
      ∃ l, alookup st'.sched client.name = some l ∧ l.length = sumWeekly st'.weekly := by
  intro client bs sd ed st st' h
  rw [processClient] at h
  have hB0 : C3Between client.name client.num_weekly_sessions
      { st with sched := schedSet st.sched client.name [], weekly := [] } := by
    constructor
    · intro w
      show weeklyGet [] w ≤ client.num_weekly_sessions
      simp [weeklyGet, alookup]
    · exact ⟨[], alookup_schedSet_self _ _ _, rfl⟩
  exact foldSpans_ind client bs sd
    (C3Between client.name client.num_weekly_sessions) (weekSpans sd ed)
    (fun a b t t' _ hB hsp => scheduleSpan_C3 client bs sd a b t t' hB hsp)
    _ st' hB0 h

/-- Claim C3 (witness): a two-session-quota client over one week with two
available days books two sessions, tracker values within quota. -/
theorem C3_witness :
    processClient ⟨"W", 15, 2, [(0, 24)], [], []⟩ 15 0 0
        ⟨[], [(0, [⟨540, 555, false⟩])], [], [], 0⟩
      = .ok ⟨[("W", [⟨540, 555⟩])], [(0, [⟨540, 555, true⟩])], [(0, 1)], [0], 1⟩ ∧
    weeklyGet [((0 : Int), 1)] 0 ≤ 2 ∧ weeklyGet [((0 : Int), 1)] 7 ≤ 2 ∧
    ∃ l, alookup [("W", [(⟨540, 555⟩ : Session)])] "W" = some l ∧
      l.length = sumWeekly [((0 : Int), 1)] := by
  have h : processClient ⟨"W", 15, 2, [(0, 24)], [], []⟩ 15 0 0
      ⟨[], [(0, [⟨540, 555, false⟩])], [], [], 0⟩
    = .ok ⟨[("W", [⟨540, 555⟩])], [(0, [⟨540, 555, true⟩])], [(0, 1)], [0], 1⟩ := by rfl
  have hc := C3_weekly_quota_respected ⟨"W", 15, 2, [(0, 24)], [], []⟩ 15 0 0
    ⟨[], [(0, [⟨540, 555, false⟩])], [], [], 0⟩
    ⟨[("W", [⟨540, 555⟩])], [(0, [⟨540, 555, true⟩])], [(0, 1)], [0], 1⟩ h
  exact ⟨h, hc.1 0, hc.1 7, hc.2⟩

/-! ### Per-client entry tracking (claims C1, C8) -/

theorem contains_false_not_mem {l : List Nat} {x : Nat}
    (h : l.contains x = false) : x ∉ l := by
  intro hmem
  rw [List.contains, List.elem_iff.mpr hmem] at h
  cases h

theorem pyIdx_mem {α : Type} {l : List α} {i : Int} {x : α}
    (h : pyIdx l i = some x) : x ∈ l := by
  rw [pyIdx] at h
  by_cases h0 : (0 : Int) ≤ if i < 0 then (l.length : Int) + i else i
  · rw [if_pos h0] at h
    exact List.get?_mem h
  · rw [if_neg h0] at h
    exact Option.noConfusion h

/-- A successful slot start is the start of some block of the looked-up
date's list, for any run length (including `num_blocks = 0`). -/
theorem find_slot_start_mem {avail : Avail} {current duration bs s e : Nat}
    {tr : List (Int × Int)}
    (h : find_available_slot avail current duration tr bs = .ok (some (s, e))) :
    ∃ blocks, alookup avail (dateOf current) = some blocks ∧
      ∃ b ∈ blocks, b.start = s := by
  rw [find_available_slot] at h
  split at h
  · exact absurd (Except.ok.inj h) (by simp)
  · rename_i blocks hblocks
    split at h
    · exact absurd (Except.ok.inj h) (by simp)
    · refine ⟨blocks, hblocks, ?_⟩
      replace h : findSlotLoop blocks (duration / bs) tr
          (List.range (blocks.length + 1 - duration / bs)) = Except.ok (some (s, e)) := h
      generalize List.range (blocks.length + 1 - duration / bs) = idxs at h
      induction idxs with
      | nil => exact absurd (Except.ok.inj h) (by simp)
      | cons i rest ih =>
        rw [findSlotLoop] at h
        split at h
        · exact Except.noConfusion h
        · split at h
          · rename_i first last hfirst hlast
            have hse := Option.some.inj (Except.ok.inj h)
            exact ⟨first, pyIdx_mem hfirst, congrArg Prod.fst hse⟩
          · exact Except.noConfusion h
        · exact ih h

theorem spanDates_mem {a b c : Nat} (h : c ∈ spanDates a b) : ∃ k, c = a + 1440 * k := by
  rw [spanDates] at h
  split at h
  · rcases List.mem_map.mp h with ⟨k, _, rfl⟩
    exact ⟨k, rfl⟩
  · exact absurd h (List.not_mem_nil c)

/-- Every date enumerated in any span keeps the time-of-day of
`start_date`. -/
theorem weekSpans_dates_mod (sd ed : Nat) :
    ∀ p ∈ weekSpans sd ed, ∀ c ∈ spanDates p.1 p.2, c % 1440 = sd % 1440 := by
  intro p hp c hc
  obtain ⟨k, rfl⟩ := spanDates_mem hc
  suffices hsuff : p.1 % 1440 = sd % 1440 by omega
  rw [weekSpans] at hp
  rcases List.mem_append.mp hp with hp | hp
  · rcases List.mem_append.mp hp with hp | hp
    · split at hp
      · rcases List.mem_singleton.mp hp with rfl
        rfl
      · exact absurd hp (List.not_mem_nil p)
    · rcases List.mem_map.mp hp with ⟨j, _, rfl⟩
      show (firstMonday sd + 10080 * j) % 1440 = sd % 1440
      rw [firstMonday]
      omega
  · split at hp
    · rcases List.mem_singleton.mp hp with rfl
      show (firstMonday sd + 10080 * _) % 1440 = sd % 1440
      rw [firstMonday]
      omega
    · exact absurd hp (List.not_mem_nil p)

/-- Generic entry lemma: processing one client leaves its schedule entry
holding only sessions `G`-good for that client, provided the calendar
predicate `A` survives marking and every booked slot is `G`-good. -/
theorem processClient_entry (client : Client) (bs sd ed : Nat)
    (A : Avail → Prop) (G : Session → Prop)
    (hAmark : ∀ (av : Avail) (s e : Nat), A av → A (av.map (markEntry s e)))
    (hgood : ∀ (t : St) (current : Nat) (slot : Nat × Nat) (tr : List (Int × Int)),
      (tr = client.preferred_times ∨ tr = [(0, 24)]) → A t.avail →
      (∃ p ∈ weekSpans sd ed, current ∈ spanDates p.1 p.2) →
      client.blocked_dates.contains current = false →
      find_available_slot t.avail current client.session_duration tr bs = .ok (some slot) →
      G ⟨slot.1, slot.2⟩) :
    ∀ st st', A st.avail → processClient client bs sd ed st = .ok st' →
      A st'.avail ∧ ∃ l, alookup st'.sched client.name = some l ∧ ∀ S ∈ l, G S := by
  intro st st' hA h
  rw [processClient] at h
  have hmain := foldSpans_ind client bs sd
    (fun t => A t.avail ∧ ∃ l, alookup t.sched client.name = some l ∧ ∀ S ∈ l, G S)
    (weekSpans sd ed)
    (fun a b t t' hmem hP hsp => by
      refine scheduleSpan_ind client bs sd a b
        (fun u => A u.avail ∧ ∃ l, alookup u.sched client.name = some l ∧ ∀ S ∈ l, G S)
        (fun current => ∃ p ∈ weekSpans sd ed, current ∈ spanDates p.1 p.2)
        (fun u v w hu => hu)
        (fun c hc => ⟨(a, b), hmem, hc⟩)
        ?_ t t' hP hsp
      intro tr htr u current slot avail2 hu hQc hbl _ _ hfind hmark
      obtain ⟨hAu, l, hl, hG⟩ := hu
      refine ⟨?_, l ++ [⟨slot.1, slot.2⟩], ?_, ?_⟩
      · rw [mark_ok_eq hmark]
        exact hAmark _ _ _ hAu
      · show alookup (appendSession u.sched client.name ⟨slot.1, slot.2⟩) client.name = _
        rw [alookup_appendSession_self, hl]
        rfl
      · intro S hS
        rcases List.mem_append.mp hS with hS | hS
        · exact hG S hS
        · rcases List.mem_singleton.mp hS with rfl
          exact hgood u current slot tr htr hAu hQc hbl hfind)
    _ st' (by
      refine ⟨hA, [], ?_, by simp⟩
      show alookup (schedSet st.sched client.name []) client.name = some []
      exact alookup_schedSet_self _ _ _) h
  exact hmain

/-- Processing a differently-named client never touches another name's
schedule entry. -/
theorem processClient_other (client : Client) (bs sd ed : Nat) (n : String)
    (hne : client.name ≠ n) :
    ∀ st st', processClient client bs sd ed st = .ok st' →
      alookup st'.sched n = alookup st.sched n := by
  intro st st' h
  rw [processClient] at h
  have hn : n ≠ client.name := Ne.symm hne
  have hmain := foldSpans_ind client bs sd
    (fun t => alookup t.sched n = alookup st.sched n)
    (weekSpans sd ed)
    (fun a b t t' _ hP hsp => by
      refine scheduleSpan_ind client bs sd a b
        (fun u => alookup u.sched n = alookup st.sched n)
        (fun _ => True) (fun u v w hu => hu) (fun _ _ => trivial)
        ?_ t t' hP hsp
      intro tr _ u current slot avail2 hu _ _ _ _ _ _
      show alookup (appendSession u.sched client.name ⟨slot.1, slot.2⟩) n = _
      rw [alookup_appendSession_other _ _ _ _ hn]
      exact hu)
    _ st' (by
      show alookup (schedSet st.sched client.name []) n = alookup st.sched n
      exact alookup_schedSet_other _ _ _ _ hn) h
  exact hmain

/-- Processing any client preserves a marking-stable calendar
predicate. -/
theorem processClient_A (client : Client) (bs sd ed : Nat) (A : Avail → Prop)
    (hAmark : ∀ (av : Avail) (s e : Nat), A av → A (av.map (markEntry s e))) :
    ∀ st st', A st.avail → processClient client bs sd ed st = .ok st' → A st'.avail := by
  intro st st' hA h
  rw [processClient] at h
  exact foldSpans_ind client bs sd (fun t => A t.avail) (weekSpans sd ed)
    (fun a b t t' _ hP hsp => by
      refine scheduleSpan_ind client bs sd a b (fun u => A u.avail)
        (fun _ => True) (fun u v w hu => hu) (fun _ _ => trivial)
        ?_ t t' hP hsp
      intro tr _ u current slot avail2 hu _ _ _ _ _ hmark
      show A avail2
      rw [mark_ok_eq hmark]
      exact hAmark _ _ _ hu)
    { st with sched := schedSet st.sched client.name [], weekly := [] }
    st' (show A st.avail from hA) h

theorem foldClients_other (bs sd ed : Nat) (n : String) :
    ∀ (cs : List Client) (st st' : St), (∀ c ∈ cs, c.name ≠ n) →
      foldClients bs sd ed cs st = .ok st' →
      alookup st'.sched n = alookup st.sched n := by
  intro cs
  induction cs with
  | nil =>
    intro st st' _ h
    obtain rfl := Except.ok.inj h
    rfl
  | cons c rest ih =>
    intro st st' hns h
    rw [foldClients] at h
    split at h
    · exact Except.noConfusion h
    · rename_i st1 hst1
      rw [ih st1 st' (fun c' hc' => hns c' (List.mem_cons_of_mem _ hc')) h]
      exact processClient_other c bs sd ed n (hns c (List.mem_cons_self _ _)) st st1 hst1

/-- Generic per-client goodness through the whole ranked fold: with
pairwise-distinct names, the target client's final entry holds only
`G`-good sessions. -/
theorem foldClients_entry (bs sd ed : Nat) (A : Avail → Prop)
    (G : Client → Session → Prop) (cond : Client → Prop)
    (hAmark : ∀ (av : Avail) (s e : Nat), A av → A (av.map (markEntry s e)))
    (hgood : ∀ c, cond c →
      ∀ (t : St) (current : Nat) (slot : Nat × Nat) (tr : List (Int × Int)),
      (tr = c.preferred_times ∨ tr = [(0, 24)]) → A t.avail →
      (∃ p ∈ weekSpans sd ed, current ∈ spanDates p.1 p.2) →
      c.blocked_dates.contains current = false →
      find_available_slot t.avail current c.session_duration tr bs = .ok (some slot) →
      G c ⟨slot.1, slot.2⟩) :
    ∀ (cs : List Client) (st st' : St) (c : Client),
      A st.avail → (cs.map Client.name).Nodup → c ∈ cs → cond c →
      foldClients bs sd ed cs st = .ok st' →
      ∃ l, alookup st'.sched c.name = some l ∧ ∀ S ∈ l, G c S := by
  intro cs
  induction cs with
  | nil =>
    intro st st' c _ _ hc _ _
    exact absurd hc (List.not_mem_nil c)
  | cons c0 rest ih =>
    intro st st' c hA hnd hc hcond h
    rw [foldClients] at h
    split at h
    · exact Except.noConfusion h
    · rename_i st1 hst1
      rcases List.mem_cons.mp hc with rfl | hc
      · obtain ⟨_, l, hl, hG⟩ := processClient_entry c bs sd ed A (G c) hAmark
          (hgood c hcond) st st1 hA hst1
        have hothers : ∀ c' ∈ rest, c'.name ≠ c.name := by
          intro c' hc' heq
          have := (List.nodup_cons.mp hnd).1
          exact this (heq ▸ List.mem_map_of_mem Client.name hc')
        rw [foldClients_other bs sd ed c.name rest st1 st' hothers h, hl]
        exact ⟨l, rfl, hG⟩
      · exact ih st1 st' c
          (processClient_A c0 bs sd ed A hAmark st st1 hA hst1)
          (List.nodup_cons.mp hnd).2 hc hcond h

/-! ### Exact session duration on contiguous calendars (claim C1) -/

/-- On a date list of uniform, time-contiguous blocks, the `k`-th block
of a run starts `k` granularity units after the run's first block. -/
theorem run_start_arith {bs : Nat} {bl : List Block}
    (huni : ∀ b ∈ bl, b.stop = b.start + bs)
    (hchain : bl.Chain' fun x y => y.start = x.stop) :
    ∀ (i k : Nat) (bi bk : Block), bl.get? i = some bi → bl.get? (i + k) = some bk →
      bk.start = bi.start + k * bs := by
  intro i k
  induction k with
  | zero =>
    intro bi bk hbi hbk
    rw [show i + 0 = i from rfl, hbi] at hbk
    rw [Option.some.inj hbk]
    simp
  | succ k ih =>
    intro bi bk hbi hbk
    replace hbk : bl.get? (i + k + 1) = some bk := hbk
    obtain ⟨hlen, hget⟩ := List.get?_eq_some.mp hbk
    have hk : i + k < bl.length := by omega
    obtain ⟨bkk, hbkk⟩ : ∃ b, bl.get? (i + k) = some b := ⟨_, List.get?_eq_get hk⟩
    have hstep : bk.start = bkk.stop := by
      have hch := List.chain'_iff_get.mp hchain (i + k) (by omega)
      have h1 : bl.get ⟨i + k, hk⟩ = bkk := by
        rw [List.get?_eq_get hk] at hbkk
        exact Option.some.inj hbkk
      have h2 : bl.get ⟨i + k + 1, by omega⟩ = bk := by
        rw [List.get?_eq_get (show i + k + 1 < bl.length by omega)] at hbk
        exact Option.some.inj hbk
      rw [← h1, ← h2]
      exact hch
    have hbase := ih bi bkk hbi hbkk
    have hunik := huni bkk (List.get?_mem hbkk)
    rw [hstep, hunik, hbase]
    ring

/-- Claim C1 (amended): provided every date's block list is uniform
(each block exactly `block_size` long) and time-contiguous (no gaps left
by busy-interval removal), every session of a client whose duration is a
positive multiple of the granularity spans exactly `session_duration`
minutes.  (On a gapped calendar the counterexample's session spans the
gap and is longer.) -/
theorem C1_exact_duration_of_contiguous :
    ∀ (clients : List Client) (rows : List TimeSlot) (sd ed bs : Nat) (sched : Schedule)
      (c : Client),
      0 < bs →
      UniformOK bs (create_availability_blocks rows) →
      ContigOK (create_availability_blocks rows) →
      (clients.map Client.name).Nodup →
      c ∈ clients → bs ∣ c.session_duration → 0 < c.session_duration →
      schedule_sessions clients rows sd ed bs = .ok sched →
      ∀ S ∈ (alookup sched c.name).getD [], S.stop = S.start + c.session_duration := by
  intro clients rows sd ed bs sched c hbs huni hcontig hnd hc hdvd hpos h
  rw [schedule_sessions] at h
  split at h
  · obtain rfl := (Except.ok.inj h).symm
    simp [alookup]
  · split at h
    · exact Except.noConfusion h
    · rename_i stf hfold
      obtain rfl : stf.sched = sched := Except.ok.inj h
      have hcond : bs ∣ c.session_duration ∧ 0 < c.session_duration := ⟨hdvd, hpos⟩
      obtain ⟨l, hl, hG⟩ := foldClients_entry bs sd ed
        (fun av => UniformOK bs av ∧ ContigOK av)
        (fun c' S => S.stop = S.start + c'.session_duration)
        (fun c' => bs ∣ c'.session_duration ∧ 0 < c'.session_duration)
        (fun av s e hA => ⟨UniformOK_map_mark s e hA.1, ContigOK_map_mark s e hA.2⟩)
        (by
          intro c' hcond' t current slot tr _ hA _ _ hfind
          have h1 : 1 ≤ c'.session_duration / bs :=
            (Nat.one_le_div_iff hbs).mpr (Nat.le_of_dvd hcond'.2 hcond'.1)
          rcases find_slot_some h1 hfind with
            ⟨blocks, hblocks, i, hbound, _, hi, hl', hs, he⟩
          have hmem := alookup_mem hblocks
          have hun := hA.1 _ hmem
          have hch := hA.2 _ hmem
          obtain ⟨m, hm⟩ : ∃ m, c'.session_duration / bs = m + 1 :=
            ⟨c'.session_duration / bs - 1, by omega⟩
          have hidx : i + c'.session_duration / bs - 1 = i + m := by omega
          have hbk : blocks.get? (i + m) = some (blocks.get ⟨i + c'.session_duration / bs - 1, hl'⟩) := by
            rw [← hidx]
            exact List.get?_eq_get hl'
          have harith := run_start_arith hun hch i m
            (blocks.get ⟨i, hi⟩) (blocks.get ⟨i + c'.session_duration / bs - 1, hl'⟩)
            (List.get?_eq_get hi) hbk
          have hstop := hun (blocks.get ⟨i + c'.session_duration / bs - 1, hl'⟩)
            (blocks.get_mem _ _)
          show slot.2 = slot.1 + c'.session_duration
          rw [← hs, ← he, hstop, harith]
          have : (m + 1) * bs = c'.session_duration := by
            rw [← hm]
            exact Nat.div_mul_cancel hcond'.1
          rw [← this]
          ring)
        (rankClients clients)
        { sched := [], avail := create_availability_blocks rows,
          weekly := [], used := [], left := 0 }
        stf c ⟨huni, hcontig⟩
        (((rankClients_perm clients).map Client.name).nodup_iff.mpr hnd)
        ((rankClients_perm clients).mem_iff.mpr hc) hcond hfold
      rw [hl]
      exact hG

/-- Claim C1 (witness): on a contiguous two-block day, a 30-minute client
books exactly a 30-minute session. -/
theorem C1_witness :
    schedule_sessions [⟨"A", 30, 1, [(0, 24)], [], []⟩]
        [⟨0, 540, 555⟩, ⟨0, 555, 570⟩] 0 0 15
      = .ok [("A", [⟨540, 570⟩])] ∧
    (⟨540, 570⟩ : Session).stop = (⟨540, 570⟩ : Session).start + 30 := by
  have hrun : schedule_sessions [⟨"A", 30, 1, [(0, 24)], [], []⟩]
      [⟨0, 540, 555⟩, ⟨0, 555, 570⟩] 0 0 15 = .ok [("A", [⟨540, 570⟩])] := by rfl
  have hav : create_availability_blocks [⟨0, 540, 555⟩, ⟨0, 555, 570⟩]
      = [(0, [⟨540, 555, false⟩, ⟨555, 570, false⟩])] := by rfl
  have hcontig : ContigOK (create_availability_blocks [⟨0, 540, 555⟩, ⟨0, 555, 570⟩]) := by
    rw [hav]
    intro p hp
    rw [List.mem_singleton] at hp
    subst hp
    exact List.chain'_pair.mpr rfl
  refine ⟨hrun, ?_⟩
  exact C1_exact_duration_of_contiguous [⟨"A", 30, 1, [(0, 24)], [], []⟩]
    [⟨0, 540, 555⟩, ⟨0, 555, 570⟩] 0 0 15 [("A", [⟨540, 570⟩])]
    ⟨"A", 30, 1, [(0, 24)], [], []⟩ (by decide) (by decide) hcontig (by decide)
    (by decide) (by decide) (by decide) hrun ⟨540, 570⟩ (by decide)

/-! ### Blocked-date exclusion (claim C8) -/

/-- Claim C8 (amended): provided `start_date` lies at midnight (as the
app builds it with `datetime.min.time()`) and every availability block
lies on its keyed date, no client session falls on the calendar date of
any of that client's parsed (midnight) unavailable dates.  With a
non-midnight `start_date` the `current not in blocked_dates` datetime
comparison never fires, as the counterexample shows. -/
theorem C8_blocked_dates :
    ∀ (clients : List Client) (rows : List TimeSlot) (sd ed bs : Nat) (sched : Schedule)
      (c : Client),
      sd % 1440 = 0 →
      OnDateOK (create_availability_blocks rows) →
      (clients.map Client.name).Nodup →
      c ∈ clients →
      schedule_sessions clients rows sd ed bs = .ok sched →
      ∀ S ∈ (alookup sched c.name).getD [], ∀ bdt ∈ c.blocked_dates,
        bdt % 1440 = 0 → S.start / 1440 ≠ bdt / 1440 := by
  intro clients rows sd ed bs sched c hsd hA hnd hc h
  rw [schedule_sessions] at h
  split at h
  · obtain rfl := (Except.ok.inj h).symm
    simp [alookup]
  · split at h
    · exact Except.noConfusion h
    · rename_i stf hfold
      obtain rfl : stf.sched = sched := Except.ok.inj h
      obtain ⟨l, hl, hG⟩ := foldClients_entry bs sd ed OnDateOK
        (fun c' S => ∀ bdt ∈ c'.blocked_dates, bdt % 1440 = 0 →
          S.start / 1440 ≠ bdt / 1440)
        (fun _ => True)
        (fun av s e hAv => OnDateOK_map_mark s e hAv)
        (by
          intro c' _ t current slot tr _ hAv hQ hbl hfind
          obtain ⟨p, hp, hcur⟩ := hQ
          have hmod : current % 1440 = 0 := by
            rw [weekSpans_dates_mod sd ed p hp current hcur, hsd]
          rcases find_slot_start_mem hfind with ⟨blocks, hblocks, b, hbmem, hbstart⟩
          have hdate : slot.1 / 1440 = current / 1440 := by
            rw [← hbstart]
            exact hAv _ (alookup_mem hblocks) _ hbmem
          intro bdt hbdt hbmod heq
          have hbdteq : bdt = current := by
            have h1 : (⟨slot.1, slot.2⟩ : Session).start / 1440 = slot.1 / 1440 := rfl
            rw [h1, hdate] at heq
            omega
          exact contains_false_not_mem hbl (hbdteq ▸ hbdt))
        (rankClients clients)
        { sched := [], avail := create_availability_blocks rows,
          weekly := [], used := [], left := 0 }
        stf c hA
        (((rankClients_perm clients).map Client.name).nodup_iff.mpr hnd)
        ((rankClients_perm clients).mem_iff.mpr hc) trivial hfold
      rw [hl]
      exact hG

/-- Claim C8 (witness): with a midnight Monday range, a client blocking
day 1 books on day 0 only, and the session's date differs from the
blocked date. -/
theorem C8_witness :
    schedule_sessions [⟨"B", 15, 1, [(0, 24)], [], [1440]⟩] [⟨0, 540, 555⟩] 0 0 15
      = .ok [("B", [⟨540, 555⟩])] ∧
    (⟨540, 555⟩ : Session).start / 1440 ≠ 1440 / 1440 := by
  have hrun : schedule_sessions [⟨"B", 15, 1, [(0, 24)], [], [1440]⟩]
      [⟨0, 540, 555⟩] 0 0 15 = .ok [("B", [⟨540, 555⟩])] := by rfl
  refine ⟨hrun, ?_⟩
  exact C8_blocked_dates [⟨"B", 15, 1, [(0, 24)], [], [1440]⟩] [⟨0, 540, 555⟩]
    0 0 15 [("B", [⟨540, 555⟩])] ⟨"B", 15, 1, [(0, 24)], [], [1440]⟩
    (by decide) (by decide) (by decide) (by decide) hrun
    ⟨540, 555⟩ (by decide) 1440 (by decide) (by decide)

/-! ### Cross-client non-overlap (claim C2) -/

/-- All sessions of the combined schedule, in entry order. -/
def allSessions (s : Schedule) : List Session := s.foldr (fun p acc => p.2 ++ acc) []

/-- Two sessions occupy disjoint time intervals. -/
def Disj (S T : Session) : Prop := S.stop ≤ T.start ∨ T.stop ≤ S.start

theorem Disj_symm : Symmetric Disj := by
  intro S T h
  rcases h with h | h
  · exact Or.inr h
  · exact Or.inl h

/-- The grid shape of the availability calendar as built by the time-grid
builder and busy filter: uniform granularity, aligned starts, blocks on
their keyed dates, strictly increasing within a date. -/
def GridOK (bs : Nat) (avail : Avail) : Prop :=
  UniformOK bs avail ∧ AlignedOK bs avail ∧ OnDateOK avail ∧ SortedOK avail

theorem GridOK_map_mark {bs : Nat} {avail : Avail} (s e : Nat)
    (h : GridOK bs avail) : GridOK bs (avail.map (markEntry s e)) :=
  ⟨UniformOK_map_mark s e h.1, AlignedOK_map_mark s e h.2.1,
    OnDateOK_map_mark s e h.2.2.1, SortedOK_map_mark s e h.2.2.2⟩

/-- What a booked session leaves behind in the calendar: aligned
endpoints within one day, a surviving witness block at its start, and
every block starting inside it marked booked. -/
def SessInv (bs : Nat) (avail : Avail) (S : Session) : Prop :=
  bs ∣ S.start ∧ bs ∣ S.stop ∧ S.start < S.stop ∧
  S.stop ≤ S.start / 1440 * 1440 + 1440 ∧
  (∃ bl, alookup avail (S.start / 1440) = some bl ∧ ∃ b ∈ bl, b.start = S.start) ∧
  (∀ p ∈ avail, ∀ b ∈ p.2, S.start ≤ b.start → b.start < S.stop → b.booked = true)

theorem allSessions_cons (p : String × List Session) (rest : Schedule) :
    allSessions (p :: rest) = p.2 ++ allSessions rest := rfl

theorem allSessions_schedSet_nil (s : Schedule) (n : String) :
    List.Sublist (allSessions (schedSet s n [])) (allSessions s) := by
  induction s with
  | nil => simp [schedSet, allSessions]
  | cons p rest ih =>
    rw [schedSet]
    by_cases hp : p.1 = n
    · rw [if_pos hp, allSessions_cons, allSessions_cons]
      exact List.sublist_append_right p.2 _
    · rw [if_neg hp, allSessions_cons, allSessions_cons]
      exact List.Sublist.append_left ih p.2

theorem appendSession_of_none {s : Schedule} {n : String} {x : Session}
    (h : alookup s n = none) : appendSession s n x = s := by
  induction s with
  | nil => rfl
  | cons p rest ih =>
    rw [alookup] at h
    rw [appendSession]
    split at h
    · exact Option.noConfusion h
    · rename_i hp
      rw [if_neg hp, ih h]

theorem allSessions_appendSession {s : Schedule} {n : String} {x : Session}
    {l : List Session} (hl : alookup s n = some l) :
    (allSessions (appendSession s n x)).Perm (allSessions s ++ [x]) := by
  induction s with
  | nil => exact absurd hl (by simp [alookup])
  | cons p rest ih =>
    rw [alookup] at hl
    rw [appendSession]
    split at hl
    · rename_i hp
      rw [if_pos hp, allSessions_cons, allSessions_cons, List.append_assoc,
        List.append_assoc]
      exact List.Perm.append_left p.2 (List.perm_append_comm.trans (List.Perm.refl _))
    · rename_i hp
      rw [if_neg hp, allSessions_cons, allSessions_cons, List.append_assoc]
      exact List.Perm.append_left p.2 ((ih hl).trans (List.Perm.refl _))

theorem markEntry_snd_eq (s e : Nat) (p : Nat × List Block) :
    (p.1 = s / 1440 ∧ (markEntry s e p).2 = p.2.map (markBlock s e)) ∨
    (p.1 ≠ s / 1440 ∧ (markEntry s e p).2 = p.2) := by
  unfold markEntry
  split
  · rename_i hp
    exact Or.inl ⟨hp, rfl⟩
  · rename_i hp
    exact Or.inr ⟨hp, rfl⟩

/-- After a marking whose window stays within one calendar day, every
block of the calendar starting inside the window is booked. -/
theorem mark_window_global {avail : Avail} {s e : Nat}
    (hod : OnDateOK avail) (hwithin : e ≤ s / 1440 * 1440 + 1440) :
    ∀ p ∈ avail.map (markEntry s e), ∀ b ∈ p.2,
      s ≤ b.start → b.start < e → b.booked = true := by
  intro p hp b hb h1 h2
  rcases List.mem_map.mp hp with ⟨q, hq, rfl⟩
  rcases markEntry_snd_eq s e q with ⟨hkey, hsnd⟩ | ⟨hkey, hsnd⟩
  · rw [hsnd] at hb
    rcases List.mem_map.mp hb with ⟨b0, hb0, rfl⟩
    rw [markBlock_start] at h1 h2
    exact markBlock_window h1 h2
  · rw [hsnd] at hb
    exfalso
    have hdate := hod q hq b hb
    have : b.start / 1440 = s / 1440 := by omega
    exact hkey (this ▸ hdate.symm)

theorem dvd_lt_add {bs a b : Nat} (_hbs : 0 < bs) (ha : bs ∣ a) (hb : bs ∣ b)
    (h : a < b) : a + bs ≤ b := by
  obtain ⟨u, rfl⟩ := ha
  obtain ⟨v, rfl⟩ := hb
  have huv : u < v := lt_of_mul_lt_mul_left h (Nat.zero_le bs)
  calc bs * u + bs = bs * (u + 1) := by ring
    _ ≤ bs * v := Nat.mul_le_mul_left bs huv

/-- The block run returned by `find_available_slot` yields a session
satisfying the marked-calendar invariant and disjoint from every session
already satisfying it. -/
theorem C2_book {bs : Nat} (hbs : 0 < bs) (hdvd : bs ∣ 1440)
    {avail : Avail} {current duration : Nat} {tr : List (Int × Int)}
    {slot : Nat × Nat} (hG : GridOK bs avail) (h1 : 1 ≤ duration / bs)
    (hfind : find_available_slot avail current duration tr bs = .ok (some slot)) :
    SessInv bs (avail.map (markEntry slot.1 slot.2)) ⟨slot.1, slot.2⟩ ∧
    ∀ T : Session, SessInv bs avail T → Disj T ⟨slot.1, slot.2⟩ := by
  obtain ⟨huni, hali, hod, hsort⟩ := hG
  obtain ⟨s, e⟩ := slot
  rcases find_slot_some h1 hfind with
    ⟨blocks, hblocks, i, hbound, htrue, hi, hl, hs, he⟩
  have hpmem : (dateOf current, blocks) ∈ avail := alookup_mem hblocks
  have hsortb : blocks.Pairwise fun x y => x.start < y.start := hsort _ hpmem
  have hmono : ∀ (j k : Fin blocks.length), j < k →
      (blocks.get j).start < (blocks.get k).start :=
    List.pairwise_iff_get.mp hsortb
  have hrun := (isa_true_facts htrue).2
  set nb := duration / bs with hnb
  have hlast : blocks.get ⟨i + nb - 1, hl⟩ ∈ blocks := List.get_mem blocks _ _
  have hfirst : blocks.get ⟨i, hi⟩ ∈ blocks := List.get_mem blocks _ _
  have huni_last := huni _ hpmem _ hlast
  have hali_last := hali _ hpmem _ hlast
  have hali_first := hali _ hpmem _ hfirst
  have hod_last := hod _ hpmem _ hlast
  have hod_first := hod _ hpmem _ hfirst
  replace hod_last : (blocks.get ⟨i + nb - 1, hl⟩).start / 1440 = dateOf current :=
    hod_last
  replace hod_first : (blocks.get ⟨i, hi⟩).start / 1440 = dateOf current :=
    hod_first
  have hstart_le : (blocks.get ⟨i, hi⟩).start ≤ (blocks.get ⟨i + nb - 1, hl⟩).start := by
    rcases Nat.lt_or_ge i (i + nb - 1) with hlt | hge
    · exact le_of_lt (hmono ⟨i, hi⟩ ⟨i + nb - 1, hl⟩ hlt)
    · have hieq : (⟨i + nb - 1, hl⟩ : Fin blocks.length) = ⟨i, hi⟩ :=
        Fin.ext (show i + nb - 1 = i by omega)
      rw [hieq]
  have hse : s < e := by
    rw [← hs, ← he, huni_last]
    omega
  have hsd : s / 1440 = dateOf current := by rw [← hs]; exact hod_first
  have hde : e ≤ s / 1440 * 1440 + 1440 := by
    rw [hsd]
    have hlt : (blocks.get ⟨i + nb - 1, hl⟩).start < dateOf current * 1440 + 1440 := by
      omega
    have hdvd2 : bs ∣ dateOf current * 1440 + 1440 := by
      have h1440 : dateOf current * 1440 + 1440 = 1440 * (dateOf current + 1) := by ring
      rw [h1440]
      exact Dvd.dvd.mul_right hdvd _
    have := dvd_lt_add hbs hali_last hdvd2 hlt
    rw [← he, huni_last]
    omega
  have hwit : bs ∣ s ∧ bs ∣ e := by
    constructor
    · rw [← hs]; exact hali_first
    · rw [← he, huni_last]
      exact Nat.dvd_add hali_last dvd_rfl
  refine ⟨⟨hwit.1, hwit.2, hse, hde, ?_, mark_window_global hod hde⟩, ?_⟩
  · rw [alookup_map_markEntry, if_pos rfl]
    rw [hsd, hblocks]
    refine ⟨blocks.map (markBlock s e), rfl, markBlock s e (blocks.get ⟨i, hi⟩),
      List.mem_map_of_mem _ hfirst, ?_⟩
    rw [markBlock_start]
    exact hs
  · intro T hT
    obtain ⟨hTa, hTb, hTse, hTday, ⟨blT, hblT, bT, hbTmem, hbTstart⟩, hTwin⟩ := hT
    by_contra hnd
    rw [Disj] at hnd
    push_neg at hnd
    obtain ⟨hT1, hT2⟩ := hnd
    replace hT1 : s < T.stop := hT1
    replace hT2 : T.start < e := hT2
    rcases le_or_lt T.start s with hc | hc
    · rcases hrun 0 (by omega) with ⟨b0, hb0, hb0f⟩
      rw [show i + 0 = i from rfl, List.get?_eq_get hi] at hb0
      obtain rfl := Option.some.inj hb0
      have := hTwin _ hpmem _ hfirst (by rw [hs]; exact hc) (by rw [hs]; exact hT1)
      rw [this] at hb0f
      cases hb0f
    · have hdT : T.start / 1440 = dateOf current := by omega
      rw [hdT, hblocks] at hblT
      obtain rfl := Option.some.inj hblT
      rcases List.mem_iff_get.mp hbTmem with ⟨⟨k, hk⟩, hbk⟩
      have hik : i < k := by
        by_contra hle
        push_neg at hle
        rcases Nat.lt_or_ge k i with hlt | hge
        · have := hmono ⟨k, hk⟩ ⟨i, hi⟩ hlt
          rw [hbk, hbTstart, hs] at this
          omega
        · have hki : k = i := by omega
          subst hki
          rw [hbk] at hs
          rw [hbTstart] at hs
          omega
      have hkl : k ≤ i + nb - 1 := by
        by_contra hgt
        push_neg at hgt
        have hlt := hmono ⟨i + nb - 1, hl⟩ ⟨k, hk⟩ hgt
        rw [hbk, hbTstart] at hlt
        have hstep := dvd_lt_add hbs hali_last hTa hlt
        rw [← he, huni_last] at hT2
        omega
      rcases hrun (k - i) (by omega) with ⟨b', hb', hb'f⟩
      rw [show i + (k - i) = k by omega, List.get?_eq_get hk] at hb'
      obtain rfl := Option.some.inj hb'
      rw [hbk] at hb'f
      have := hTwin _ hpmem _ hbTmem (by rw [hbTstart]) (by rw [hbTstart]; omega)
      rw [this] at hb'f
      cases hb'f

/-- A session's invariant survives further marking. -/
theorem SessInv_mark {bs : Nat} {avail : Avail} {s e : Nat} {S : Session}
    (h : SessInv bs avail S) : SessInv bs (avail.map (markEntry s e)) S := by
  obtain ⟨h1, h2, h3, h4, ⟨bl, hbl, b, hbmem, hbstart⟩, hwin⟩ := h
  refine ⟨h1, h2, h3, h4, ?_, ?_⟩
  · rw [alookup_map_markEntry]
    by_cases hd : S.start / 1440 = s / 1440
    · rw [if_pos hd, hbl]
      exact ⟨bl.map (markBlock s e), rfl, markBlock s e b,
        List.mem_map_of_mem _ hbmem, by rw [markBlock_start]; exact hbstart⟩
    · rw [if_neg hd, hbl]
      exact ⟨bl, rfl, b, hbmem, hbstart⟩
  · intro p hp b' hb' ha hb
    rcases List.mem_map.mp hp with ⟨q, hq, rfl⟩
    rcases mem_markEntry hb' with ⟨b0, hb0, hst, _, hmono⟩
    rw [hst] at ha hb
    exact hmono (hwin q hq b0 hb0 ha hb)

/-- The global invariant carried through the scheduling run: the grid
shape of the calendar, the marked-calendar invariant of every booked
session, and pairwise disjointness of all sessions. -/
def C2Inv (bs : Nat) (st : St) : Prop :=
  GridOK bs st.avail ∧ (∀ S ∈ allSessions st.sched, SessInv bs st.avail S) ∧
  (allSessions st.sched).Pairwise Disj

/-- One booking step preserves the global invariant. -/
theorem C2_step {bs : Nat} (hbs : 0 < bs) (hdvd : bs ∣ 1440) (name : String)
    {duration : Nat} (hdur : bs ≤ duration)
    {tr : List (Int × Int)} {sched : Schedule} {avail avail2 : Avail}
    {current : Nat} {slot : Nat × Nat}
    (hG : GridOK bs avail)
    (hsess : ∀ S ∈ allSessions sched, SessInv bs avail S)
    (hpw : (allSessions sched).Pairwise Disj)
    (hfind : find_available_slot avail current duration tr bs = .ok (some slot))
    (hmark : mark_slot_booked avail slot.1 slot.2 = .ok avail2) :
    GridOK bs avail2 ∧
    (∀ S ∈ allSessions (appendSession sched name ⟨slot.1, slot.2⟩),
      SessInv bs avail2 S) ∧
    (allSessions (appendSession sched name ⟨slot.1, slot.2⟩)).Pairwise Disj := by
  obtain rfl := mark_ok_eq hmark
  have h1 : 1 ≤ duration / bs := (Nat.one_le_div_iff hbs).mpr hdur
  obtain ⟨hnew, hdisj⟩ := C2_book hbs hdvd hG h1 hfind
  rcases hcase : alookup sched name with _ | l
  · rw [appendSession_of_none hcase]
    exact ⟨GridOK_map_mark _ _ hG, fun S hS => SessInv_mark (hsess S hS), hpw⟩
  · have hperm := @allSessions_appendSession sched name ⟨slot.1, slot.2⟩ l hcase
    refine ⟨GridOK_map_mark _ _ hG, ?_, ?_⟩
    · intro S hS
      rcases List.mem_append.mp (hperm.mem_iff.mp hS) with hS' | hS'
      · exact SessInv_mark (hsess S hS')
      · rw [List.mem_singleton.mp hS']
        exact hnew
    · have hpw2 : (allSessions sched ++ [(⟨slot.1, slot.2⟩ : Session)]).Pairwise Disj := by
        rw [List.pairwise_append]
        refine ⟨hpw, List.pairwise_singleton _ _, ?_⟩
        intro T hT S' hS'
        rw [List.mem_singleton.mp hS']
        exact hdisj T (hsess T hT)
      exact (List.Perm.pairwise_iff (fun h => Disj_symm h) hperm).mpr hpw2

/-- A full client's processing preserves the global invariant. -/
theorem C2Inv_processClient {bs : Nat} (hbs : 0 < bs) (hdvd : bs ∣ 1440)
    (c : Client) (hdur : bs ≤ c.session_duration) (sd ed : Nat) :
    ∀ st st', C2Inv bs st → processClient c bs sd ed st = .ok st' → C2Inv bs st' := by
  intro st st' hP h
  refine processClient_ind c bs sd ed (C2Inv bs) ?_ ?_ st st' hP h
  · intro t ht
    obtain ⟨hG, hsess, hpw⟩ := ht
    have hsub := allSessions_schedSet_nil t.sched c.name
    exact ⟨hG, fun S hS => hsess S (hsub.subset hS), hpw.sublist hsub⟩
  · intro a b t t' _ hP' hok
    refine scheduleSpan_ind c bs sd a b (C2Inv bs) (fun _ => True) ?_ (fun _ _ => trivial)
      ?_ t t' hP' hok
    · intro u uu ll hu
      exact hu
    · intro tr _ u current slot avail2 hu _ _ _ _ hfind hmark
      obtain ⟨hG, hsess, hpw⟩ := hu
      obtain ⟨hG2, hsess2, hpw2⟩ := C2_step hbs hdvd c.name hdur hG hsess hpw hfind hmark
      exact ⟨hG2, hsess2, hpw2⟩

/-- Claim C2: for every run of `schedule_sessions` on well-typed inputs —
a positive block size dividing the day, every client's session duration
at least one block, and the availability calendar built from the input
rows in grid shape (uniform block length, aligned starts, blocks on
their keyed dates, strictly increasing starts per date) — any two
distinct sessions of the returned combined schedule, across all clients,
occupy non-overlapping time intervals [start, stop). -/
theorem C2_sessions_disjoint (clients : List Client) (rows : List TimeSlot)
    (sd ed bs : Nat) (sched : Schedule)
    (hbs : 0 < bs) (hdvd : bs ∣ 1440)
    (hdur : ∀ c ∈ clients, bs ≤ c.session_duration)
    (hgrid : GridOK bs (create_availability_blocks rows))
    (hok : schedule_sessions clients rows sd ed bs = .ok sched) :
    (allSessions sched).Pairwise Disj := by
  rw [schedule_sessions] at hok
  split at hok
  · obtain rfl := Except.ok.inj hok
    exact List.Pairwise.nil
  · split at hok
    · exact Except.noConfusion hok
    · rename_i st hst
      obtain rfl := Except.ok.inj hok
      have hinv : C2Inv bs st := by
        refine foldClients_ind bs sd ed (C2Inv bs) (rankClients clients) ?_ _ st ?_ hst
        · intro c hc t t' hP h
          have hcmem : c ∈ clients := (rankClients_perm clients).mem_iff.mp hc
          exact C2Inv_processClient hbs hdvd c (hdur c hcmem) sd ed t t' hP h
        · exact ⟨hgrid, fun S hS => absurd hS (List.not_mem_nil S), List.Pairwise.nil⟩
      exact hinv.2.2

/-- Claim C2 (witness): a concrete two-client run — both sessions land
back to back and the combined schedule is pairwise disjoint. -/
theorem C2_witness :
    schedule_sessions [⟨"A", 15, 1, [(0, 24)], [], []⟩, ⟨"B", 15, 1, [(0, 24)], [], []⟩]
        [⟨0, 540, 555⟩, ⟨0, 555, 570⟩] 0 0 15
      = .ok [("A", [⟨540, 555⟩]), ("B", [⟨555, 570⟩])] ∧
    (allSessions [("A", [⟨540, 555⟩]), ("B", [⟨555, 570⟩])]).Pairwise Disj := by
  have hrun : schedule_sessions
      [⟨"A", 15, 1, [(0, 24)], [], []⟩, ⟨"B", 15, 1, [(0, 24)], [], []⟩]
      [⟨0, 540, 555⟩, ⟨0, 555, 570⟩] 0 0 15
    = .ok [("A", [⟨540, 555⟩]), ("B", [⟨555, 570⟩])] := by rfl
  refine ⟨hrun, ?_⟩
  exact C2_sessions_disjoint
    [⟨"A", 15, 1, [(0, 24)], [], []⟩, ⟨"B", 15, 1, [(0, 24)], [], []⟩]
    [⟨0, 540, 555⟩, ⟨0, 555, 570⟩] 0 0 15
    [("A", [⟨540, 555⟩]), ("B", [⟨555, 570⟩])]
    (by decide) (by decide) (by decide)
    ⟨by decide, by decide, by decide, by decide⟩ hrun

end Scheduler
